import Mathlib

/-!
Verification of the routing-appender templating engine.

This file shallowly embeds the two source files of the repository:

* `src/route/pattern/template.rs`: the `Template` / `ValueTemplate` engine —
  building a type-preserving template from a `serde_value::Value` tree,
  deriving a cache key from the referenced MDC keys, expanding the template
  against the MDC, and the hand-written `PartialEq` / `Ord` instances on
  `ValueTemplate`.
* `src/lib.rs`: the `RoutingAppender` entry point and its builder.

Modelling conventions:

* Machine integers are modelled as `Nat` / `Int`; no claim involves overflow.
* `f32` / `f64` leaves are compared through `ordered_float::OrderedFloat`,
  a canonical total order on floating values in which bit-identical values
  are equal; we model a float by its rank in that total order (an `Int`),
  which is faithful for every order-theoretic statement.
* `BTreeMap` is modelled as its iteration contents: a list of key-value
  pairs strictly sorted by the key order; `insert` is sorted insertion.
* The MDC (`log_mdc`) is modelled as an explicit lookup function
  `String → Option String` passed to the operations that consult it.
* `HashSet<String>` iteration order is unspecified in Rust; a `Template` is
  modelled as carrying the list of its referenced keys in the set's
  iteration order, constrained only to be duplicate-free and to have the
  same members as the set.
-/

/-! ## Ordering helpers -/

theorem Ordering.swap_eq_lt {o : Ordering} : o.swap = .lt ↔ o = .gt := by
  cases o <;> simp [Ordering.swap]

theorem Ordering.swap_eq_gt {o : Ordering} : o.swap = .gt ↔ o = .lt := by
  cases o <;> simp [Ordering.swap]

theorem Ordering.swap_eq_eq {o : Ordering} : o.swap = .eq ↔ o = .eq := by
  cases o <;> simp [Ordering.swap]

/-- Comparison of two elements of a linear order, returning an `Ordering`.
This is the shape of every scalar comparison in the source: Rust's `Ord`
on the primitive types. -/
def cmpOf {α : Type} [LinearOrder α] (a b : α) : Ordering :=
  if a < b then .lt else if a = b then .eq else .gt

theorem cmpOf_eq_lt {α : Type} [LinearOrder α] {a b : α} :
    cmpOf a b = .lt ↔ a < b := by
  unfold cmpOf
  split_ifs with h1 h2
  · simp [h1]
  · simp [h2]
  · simpa using h1

theorem cmpOf_eq_eq {α : Type} [LinearOrder α] {a b : α} :
    cmpOf a b = .eq ↔ a = b := by
  unfold cmpOf
  split_ifs with h1 h2
  · exact iff_of_false (by simp) (ne_of_lt h1)
  · simp [h2]
  · simp [h2]

theorem cmpOf_eq_gt {α : Type} [LinearOrder α] {a b : α} :
    cmpOf a b = .gt ↔ b < a := by
  unfold cmpOf
  split_ifs with h1 h2
  · exact iff_of_false (by simp) (lt_asymm h1)
  · subst h2; simp
  · simpa using lt_of_le_of_ne (not_lt.mp h1) (Ne.symm h2)

/-- Pointwise lawfulness of a comparator at a fixed left argument `x`.
The four fields are exactly what the lexicographic combinators below need
from the elements of their left argument. -/
structure LawAt {α : Type} (c : α → α → Ordering) (x : α) : Prop where
  eq_iff : ∀ y, c x y = .eq ↔ x = y
  swap_eq : ∀ y, (c x y).swap = c y x
  lt_trans : ∀ y z, c x y = .lt → c y z = .lt → c x z = .lt
  lt_of_lt_of_eq : ∀ y z, c x y = .lt → c y z = .eq → c x z = .lt

theorem LawAt.gt_iff_lt {α : Type} {c : α → α → Ordering} {x : α}
    (h : LawAt c x) (y : α) : c x y = .gt ↔ c y x = .lt := by
  rw [← h.swap_eq y, Ordering.swap_eq_lt]

theorem LawAt.eq_iff' {α : Type} {c : α → α → Ordering} {x : α}
    (h : LawAt c x) (y : α) : c y x = .eq ↔ y = x := by
  rw [← h.swap_eq y, Ordering.swap_eq_eq, h.eq_iff y, eq_comm]

theorem LawAt.refl {α : Type} {c : α → α → Ordering} {x : α}
    (h : LawAt c x) : c x x = .eq := (h.eq_iff x).mpr rfl

theorem lawAt_cmpOf {α : Type} [LinearOrder α] (x : α) : LawAt cmpOf x where
  eq_iff y := cmpOf_eq_eq
  swap_eq y := by
    rcases lt_trichotomy x y with h | h | h
    · rw [cmpOf_eq_lt.mpr h, (cmpOf_eq_gt (a := y)).mpr h]; rfl
    · rw [cmpOf_eq_eq.mpr h, (cmpOf_eq_eq (a := y)).mpr h.symm]; rfl
    · rw [cmpOf_eq_gt.mpr h, (cmpOf_eq_lt (a := y)).mpr h]; rfl
  lt_trans y z h1 h2 :=
    cmpOf_eq_lt.mpr (lt_trans (cmpOf_eq_lt.mp h1) (cmpOf_eq_lt.mp h2))
  lt_of_lt_of_eq y z h1 h2 := by
    rw [show y = z from cmpOf_eq_eq.mp h2] at h1; exact h1

/-! ## Lexicographic combinators

Rust derives `Ord` for `Vec<T>` (lexicographic, shorter prefix first),
`Option<T>` (`None < Some`), and tuples (component-wise lexicographic).
These are the combinators used by the derived orders in the source. -/

/-- Lexicographic comparison of lists, as Rust's `Ord for Vec<T>`. -/
def listCmp {α : Type} (c : α → α → Ordering) : List α → List α → Ordering
  | x :: xs, y :: ys =>
    match c x y with
    | .eq => listCmp c xs ys
    | o => o
  | [], [] => .eq
  | [], _ :: _ => .lt
  | _ :: _, [] => .gt

/-- Comparison of options, as Rust's `Ord for Option<T>`: `None < Some`. -/
def optionCmp {α : Type} (c : α → α → Ordering) :
    Option α → Option α → Ordering
  | some x, some y => c x y
  | some _, none => .gt
  | none, some _ => .lt
  | none, none => .eq

/-- Component-wise lexicographic comparison of pairs, as Rust's tuple `Ord`. -/
def prodCmp {α β : Type} (c₁ : α → α → Ordering) (c₂ : β → β → Ordering)
    (p q : α × β) : Ordering :=
  match c₁ p.1 q.1 with
  | .eq => c₂ p.2 q.2
  | o => o

theorem listCmp_eq_eq {α : Type} {c : α → α → Ordering} {l₁ l₂ : List α}
    (h : ∀ x ∈ l₁, LawAt c x) : listCmp c l₁ l₂ = .eq ↔ l₁ = l₂ := by
  induction l₁ generalizing l₂ with
  | nil => cases l₂ <;> simp [listCmp]
  | cons x xs ih =>
    cases l₂ with
    | nil => simp [listCmp]
    | cons y ys =>
      have hx := h x (by simp)
      have ih' := @ih ys (fun z hz => h z (by simp [hz]))
      simp only [listCmp]
      cases hcy : c x y with
      | eq =>
        have hxy := (hx.eq_iff y).mp hcy
        subst hxy
        simpa using ih'
      | lt =>
        refine iff_of_false (by simp) ?_
        intro he
        injection he with h1 h2
        subst h1
        rw [hx.refl] at hcy
        exact absurd hcy (by simp)
      | gt =>
        refine iff_of_false (by simp) ?_
        intro he
        injection he with h1 h2
        subst h1
        rw [hx.refl] at hcy
        exact absurd hcy (by simp)

theorem listCmp_swap {α : Type} {c : α → α → Ordering} {l₁ l₂ : List α}
    (h : ∀ x ∈ l₁, LawAt c x) : (listCmp c l₁ l₂).swap = listCmp c l₂ l₁ := by
  induction l₁ generalizing l₂ with
  | nil => cases l₂ <;> rfl
  | cons x xs ih =>
    cases l₂ with
    | nil => rfl
    | cons y ys =>
      have hx := h x (by simp)
      have ih' := @ih ys (fun z hz => h z (by simp [hz]))
      simp only [listCmp]
      cases hcy : c x y with
      | eq =>
        have hyx : c y x = .eq := by rw [← hx.swap_eq y, hcy]; rfl
        rw [hyx]; exact ih'
      | lt =>
        have hyx : c y x = .gt := by rw [← hx.swap_eq y, hcy]; rfl
        rw [hyx]; rfl
      | gt =>
        have hyx : c y x = .lt := by rw [← hx.swap_eq y, hcy]; rfl
        rw [hyx]; rfl

theorem listCmp_lt_trans {α : Type} {c : α → α → Ordering} {l₁ l₂ l₃ : List α}
    (h : ∀ x ∈ l₁, LawAt c x) (h12 : listCmp c l₁ l₂ = .lt)
    (h23 : listCmp c l₂ l₃ = .lt) : listCmp c l₁ l₃ = .lt := by
  induction l₁ generalizing l₂ l₃ with
  | nil =>
    cases l₂ with
    | nil => exact absurd h12 (by simp [listCmp])
    | cons y ys =>
      cases l₃ with
      | nil => exact absurd h23 (by simp [listCmp])
      | cons z zs => simp [listCmp]
  | cons x xs ih =>
    cases l₂ with
    | nil => exact absurd h12 (by simp [listCmp])
    | cons y ys =>
      cases l₃ with
      | nil => exact absurd h23 (by simp [listCmp])
      | cons z zs =>
        have hx := h x (by simp)
        simp only [listCmp] at h12 h23 ⊢
        cases hcy : c x y with
        | eq =>
          have hxy := (hx.eq_iff y).mp hcy
          subst hxy
          rw [hcy] at h12
          cases hcz : c x z with
          | eq =>
            rw [hcz] at h23
            exact ih (fun w hw => h w (by simp [hw])) h12 h23
          | lt => rfl
          | gt => rw [hcz] at h23; exact absurd h23 (by simp)
        | lt =>
          rw [hcy] at h12
          cases hyz : c y z with
          | eq =>
            rw [hx.lt_of_lt_of_eq y z hcy hyz]
          | lt =>
            rw [hx.lt_trans y z hcy hyz]
          | gt => rw [hyz] at h23; exact absurd h23 (by simp)
        | gt => rw [hcy] at h12; exact absurd h12 (by simp)

theorem listCmp_lt_of_lt_of_eq {α : Type} {c : α → α → Ordering}
    {l₁ l₂ l₃ : List α} (h : ∀ x ∈ l₁, LawAt c x)
    (h12 : listCmp c l₁ l₂ = .lt) (h23 : listCmp c l₂ l₃ = .eq) :
    listCmp c l₁ l₃ = .lt := by
  induction l₁ generalizing l₂ l₃ with
  | nil =>
    cases l₂ with
    | nil => exact absurd h12 (by simp [listCmp])
    | cons y ys =>
      cases l₃ with
      | nil => exact absurd h23 (by simp [listCmp])
      | cons z zs => simp [listCmp]
  | cons x xs ih =>
    cases l₂ with
    | nil => exact absurd h12 (by simp [listCmp])
    | cons y ys =>
      cases l₃ with
      | nil => exact absurd h23 (by simp [listCmp])
      | cons z zs =>
        have hx := h x (by simp)
        simp only [listCmp] at h12 h23 ⊢
        cases hyz : c y z with
        | lt => rw [hyz] at h23; exact absurd h23 (by simp)
        | gt => rw [hyz] at h23; exact absurd h23 (by simp)
        | eq =>
          rw [hyz] at h23
          cases hcy : c x y with
          | eq =>
            have hxy := (hx.eq_iff y).mp hcy
            subst hxy
            rw [hcy] at h12
            rw [hyz]
            exact ih (fun w hw => h w (by simp [hw])) h12 h23
          | lt =>
            rw [hx.lt_of_lt_of_eq y z hcy hyz]
          | gt => rw [hcy] at h12; exact absurd h12 (by simp)

theorem lawAt_listCmp {α : Type} {c : α → α → Ordering} {l : List α}
    (h : ∀ x ∈ l, LawAt c x) : LawAt (listCmp c) l where
  eq_iff _ := listCmp_eq_eq h
  swap_eq _ := listCmp_swap h
  lt_trans _ _ := listCmp_lt_trans h
  lt_of_lt_of_eq _ _ := listCmp_lt_of_lt_of_eq h

theorem lawAt_optionCmp {α : Type} {c : α → α → Ordering} {o : Option α}
    (h : ∀ x ∈ o, LawAt c x) : LawAt (optionCmp c) o where
  eq_iff y := by
    cases o with
    | none => cases y <;> simp [optionCmp]
    | some x =>
      cases y with
      | none => simp [optionCmp]
      | some y =>
        simpa [optionCmp] using (h x rfl).eq_iff y
  swap_eq y := by
    cases o with
    | none => cases y <;> rfl
    | some x =>
      cases y with
      | none => rfl
      | some y => exact (h x rfl).swap_eq y
  lt_trans y z h1 h2 := by
    cases o with
    | none =>
      cases y with
      | none => exact absurd h1 (by simp [optionCmp])
      | some y =>
        cases z with
        | none => exact absurd h2 (by simp [optionCmp])
        | some z => rfl
    | some x =>
      cases y with
      | none => exact absurd h1 (by simp [optionCmp])
      | some y =>
        cases z with
        | none => exact absurd h2 (by simp [optionCmp])
        | some z => exact (h x rfl).lt_trans y z h1 h2
  lt_of_lt_of_eq y z h1 h2 := by
    cases o with
    | none =>
      cases y with
      | none => exact absurd h1 (by simp [optionCmp])
      | some y =>
        cases z with
        | none => exact absurd h2 (by simp [optionCmp])
        | some z => rfl
    | some x =>
      cases y with
      | none => exact absurd h1 (by simp [optionCmp])
      | some y =>
        cases z with
        | none => exact absurd h2 (by simp [optionCmp])
        | some z => exact (h x rfl).lt_of_lt_of_eq y z h1 h2

theorem lawAt_prodCmp {α β : Type} {c₁ : α → α → Ordering}
    {c₂ : β → β → Ordering} {p : α × β} (h₁ : LawAt c₁ p.1)
    (h₂ : LawAt c₂ p.2) : LawAt (prodCmp c₁ c₂) p where
  eq_iff q := by
    obtain ⟨a, b⟩ := p
    obtain ⟨x, y⟩ := q
    simp only [prodCmp]
    cases hax : c₁ a x with
    | eq =>
      have := (h₁.eq_iff x).mp hax
      subst this
      simp only [Prod.mk.injEq, true_and]
      exact (h₂.eq_iff y).trans (by simp)
    | lt =>
      refine iff_of_false (by simp) ?_
      intro he
      injection he with ha hb
      subst ha
      rw [h₁.refl] at hax
      exact absurd hax (by simp)
    | gt =>
      refine iff_of_false (by simp) ?_
      intro he
      injection he with ha hb
      subst ha
      rw [h₁.refl] at hax
      exact absurd hax (by simp)
  swap_eq q := by
    obtain ⟨a, b⟩ := p
    obtain ⟨x, y⟩ := q
    simp only [prodCmp]
    cases hax : c₁ a x with
    | eq =>
      have hxa : c₁ x a = .eq := by rw [← h₁.swap_eq x, hax]; rfl
      rw [hxa]
      exact h₂.swap_eq y
    | lt =>
      have hxa : c₁ x a = .gt := by rw [← h₁.swap_eq x, hax]; rfl
      rw [hxa]; rfl
    | gt =>
      have hxa : c₁ x a = .lt := by rw [← h₁.swap_eq x, hax]; rfl
      rw [hxa]; rfl
  lt_trans q r hq hr := by
    obtain ⟨a, b⟩ := p
    obtain ⟨x, y⟩ := q
    obtain ⟨u, v⟩ := r
    simp only [prodCmp] at hq hr ⊢
    cases hax : c₁ a x with
    | eq =>
      have := (h₁.eq_iff x).mp hax
      subst this
      rw [hax] at hq
      cases hau : c₁ a u with
      | eq => rw [hau] at hr; exact h₂.lt_trans _ _ hq hr
      | lt => rfl
      | gt => rw [hau] at hr; exact absurd hr (by simp)
    | lt =>
      rw [hax] at hq
      cases hxu : c₁ x u with
      | eq => rw [h₁.lt_of_lt_of_eq x u hax hxu]
      | lt => rw [h₁.lt_trans x u hax hxu]
      | gt => rw [hxu] at hr; exact absurd hr (by simp)
    | gt => rw [hax] at hq; exact absurd hq (by simp)
  lt_of_lt_of_eq q r hq hr := by
    obtain ⟨a, b⟩ := p
    obtain ⟨x, y⟩ := q
    obtain ⟨u, v⟩ := r
    simp only [prodCmp] at hq hr ⊢
    cases hxu : c₁ x u with
    | lt => rw [hxu] at hr; exact absurd hr (by simp)
    | gt => rw [hxu] at hr; exact absurd hr (by simp)
    | eq =>
      rw [hxu] at hr
      cases hax : c₁ a x with
      | eq =>
        have := (h₁.eq_iff x).mp hax
        subst this
        rw [hax] at hq
        rw [hxu]
        exact h₂.lt_of_lt_of_eq _ _ hq hr
      | lt =>
        rw [h₁.lt_of_lt_of_eq x u hax hxu]
      | gt => rw [hax] at hq; exact absurd hq (by simp)

/-! ## Strings and chunks

Rust's `Ord for String` is byte-wise lexicographic; since UTF-8 preserves
code-point order, this equals lexicographic comparison of the code-point
sequences, which is how we model it. -/

/-- Rust's `Ord for String`: lexicographic on the character sequence. -/
def strCmp (a b : String) : Ordering := listCmp cmpOf a.data b.data

theorem lawAt_strCmp (s : String) : LawAt strCmp s where
  eq_iff y := by
    unfold strCmp
    rw [listCmp_eq_eq (fun x _ => lawAt_cmpOf x)]
    constructor
    · intro h
      cases s; cases y
      exact congrArg String.mk h
    · intro h; rw [h]
  swap_eq y := listCmp_swap (fun x _ => lawAt_cmpOf x)
  lt_trans y z := listCmp_lt_trans (fun x _ => lawAt_cmpOf x)
  lt_of_lt_of_eq y z := listCmp_lt_of_lt_of_eq (fun x _ => lawAt_cmpOf x)

/-- A piece produced by the pattern parser.

Modelled from the spec: the parser (`route::pattern::parser`, not under
`src/`) lexes a pattern string into literal text spans, argument references
`${name(arg, ...)}`, and a terminal error for a malformed construct. The
operations that consume pieces take the parser as an explicit function
`String → List Piece`. -/
inductive Piece where
  | text (t : String)
  | argument (name : String) (args : List String)
  | error (e : String)
  deriving DecidableEq

/-- A chunk of a parsed string leaf: literal text, or an MDC reference with
an optional literal default (`enum Chunk` in `template.rs`). -/
inductive Chunk where
  | text (t : String)
  | mdc (key : String) (default : Option String)
  deriving DecidableEq

/-- The derived `Ord for Chunk`: `Text` before `Mdc`, fields lexicographic,
`Option` ordered `None < Some`. -/
def chunkCmp : Chunk → Chunk → Ordering
  | .text a, .text b => strCmp a b
  | .text _, .mdc _ _ => .lt
  | .mdc _ _, .text _ => .gt
  | .mdc k₁ d₁, .mdc k₂ d₂ =>
    prodCmp strCmp (optionCmp strCmp) (k₁, d₁) (k₂, d₂)

theorem lawAt_chunkCmp (ch : Chunk) : LawAt chunkCmp ch := by
  have hmdc : ∀ k d, LawAt (prodCmp strCmp (optionCmp strCmp))
      ((k : String), (d : Option String)) := fun k d =>
    lawAt_prodCmp (lawAt_strCmp k)
      (lawAt_optionCmp (fun x _ => lawAt_strCmp x))
  constructor
  · intro y
    cases ch with
    | text a =>
      cases y with
      | text b => simpa [chunkCmp] using (lawAt_strCmp a).eq_iff b
      | mdc k d => simp [chunkCmp]
    | mdc k d =>
      cases y with
      | text b => simp [chunkCmp]
      | mdc k' d' =>
        simpa [chunkCmp, Prod.ext_iff] using (hmdc k d).eq_iff (k', d')
  · intro y
    cases ch with
    | text a =>
      cases y with
      | text b => exact (lawAt_strCmp a).swap_eq b
      | mdc k d => rfl
    | mdc k d =>
      cases y with
      | text b => rfl
      | mdc k' d' => exact (hmdc k d).swap_eq (k', d')
  · intro y z h1 h2
    cases ch with
    | text a =>
      cases y with
      | text b =>
        cases z with
        | text e => exact (lawAt_strCmp a).lt_trans b e h1 h2
        | mdc k d => rfl
      | mdc k d =>
        cases z with
        | text e => exact absurd h2 (by simp [chunkCmp])
        | mdc k' d' => rfl
    | mdc k d =>
      cases y with
      | text b => exact absurd h1 (by simp [chunkCmp])
      | mdc k' d' =>
        cases z with
        | text e => exact absurd h2 (by simp [chunkCmp])
        | mdc k'' d'' => exact (hmdc k d).lt_trans (k', d') (k'', d'') h1 h2
  · intro y z h1 h2
    cases ch with
    | text a =>
      cases y with
      | text b =>
        cases z with
        | text e => exact (lawAt_strCmp a).lt_of_lt_of_eq b e h1 h2
        | mdc k d => rfl
      | mdc k d =>
        cases z with
        | text e => exact absurd h2 (by simp [chunkCmp])
        | mdc k' d' => rfl
    | mdc k d =>
      cases y with
      | text b => exact absurd h1 (by simp [chunkCmp])
      | mdc k' d' =>
        cases z with
        | text e => exact absurd h2 (by simp [chunkCmp])
        | mdc k'' d'' =>
          exact (hmdc k d).lt_of_lt_of_eq (k', d') (k'', d'') h1 h2

/-- The derived `Ord for Vec<Chunk>`, the payload order of a template's
string leaves. -/
def chunksCmp : List Chunk → List Chunk → Ordering := listCmp chunkCmp

theorem lawAt_chunksCmp (cs : List Chunk) : LawAt chunksCmp cs :=
  lawAt_listCmp (fun x _ => lawAt_chunkCmp x)

/-- Structural equality on chunk lists, the payload equality used by the
derived `PartialEq for Vec<Chunk>`. -/
def chunksBeq (a b : List Chunk) : Bool := decide (a = b)

/-! ## The typed value tree

`TVal σ` models both `serde_value::Value` (with `σ = String`: a string
leaf is the raw pattern string) and `ValueTemplate` (with
`σ = List Chunk`: every string leaf has been parsed into chunks). The
constructors are those of the `ValueTemplate` enum in `template.rs`, which
mirror `serde_value::Value` variant for variant. -/
inductive TVal (σ : Type) where
  | map (m : List (TVal σ × TVal σ))
  | newtype (v : TVal σ)
  | option (v : Option (TVal σ))
  | seq (vs : List (TVal σ))
  | str (s : σ)
  | bool (b : Bool)
  | bytes (b : List Nat)
  | char (c : Char)
  | f32 (r : Int)
  | f64 (r : Int)
  | i8 (n : Int)
  | i16 (n : Int)
  | i32 (n : Int)
  | i64 (n : Int)
  | u8 (n : Nat)
  | u16 (n : Nat)
  | u32 (n : Nat)
  | u64 (n : Nat)
  | unit

/-- `serde_value::Value`: a value tree whose string leaves are raw strings. -/
abbrev Value := TVal String

/-- `ValueTemplate`: a value tree whose string leaves are chunk sequences. -/
abbrev ValueTemplate := TVal (List Chunk)

/-- The per-kind rank used for cross-kind comparisons
(`ValueTemplate::discriminant` in `template.rs`). -/
def TVal.discriminant {σ : Type} : TVal σ → Nat
  | .bool _ => 0
  | .u8 _ => 1
  | .u16 _ => 2
  | .u32 _ => 3
  | .u64 _ => 4
  | .i8 _ => 5
  | .i16 _ => 6
  | .i32 _ => 7
  | .i64 _ => 8
  | .f32 _ => 9
  | .f64 _ => 10
  | .char _ => 11
  | .str _ => 12
  | .unit => 13
  | .option _ => 14
  | .newtype _ => 15
  | .seq _ => 16
  | .map _ => 17
  | .bytes _ => 18

/-! The total order on the value tree (`impl Ord for ValueTemplate`):
same-kind values compare structurally (floats through the `OrderedFloat`
rank, maps as their sorted pair sequences, exactly as `BTreeMap`'s `Ord`
compares its iteration sequences), different kinds compare by
`discriminant`. `serde_value::Value`'s own `Ord` — which the in-repo
implementation copies — is the same function at payload order `strCmp`. -/
mutual
def TVal.cmp {σ : Type} (c : σ → σ → Ordering) : TVal σ → TVal σ → Ordering
  | .bool a, .bool b => cmpOf a b
  | .u8 a, .u8 b => cmpOf a b
  | .u16 a, .u16 b => cmpOf a b
  | .u32 a, .u32 b => cmpOf a b
  | .u64 a, .u64 b => cmpOf a b
  | .i8 a, .i8 b => cmpOf a b
  | .i16 a, .i16 b => cmpOf a b
  | .i32 a, .i32 b => cmpOf a b
  | .i64 a, .i64 b => cmpOf a b
  | .f32 a, .f32 b => cmpOf a b
  | .f64 a, .f64 b => cmpOf a b
  | .char a, .char b => cmpOf a b
  | .str a, .str b => c a b
  | .unit, .unit => .eq
  | .option a, .option b =>
    match a, b with
    | some x, some y => TVal.cmp c x y
    | some _, none => .gt
    | none, some _ => .lt
    | none, none => .eq
  | .newtype a, .newtype b => TVal.cmp c a b
  | .seq a, .seq b => TVal.cmpList c a b
  | .map a, .map b => TVal.cmpPairs c a b
  | .bytes a, .bytes b => listCmp cmpOf a b
  | a, b => cmpOf a.discriminant b.discriminant

def TVal.cmpList {σ : Type} (c : σ → σ → Ordering) :
    List (TVal σ) → List (TVal σ) → Ordering
  | x :: xs, y :: ys =>
    match TVal.cmp c x y with
    | .eq => TVal.cmpList c xs ys
    | o => o
  | [], [] => .eq
  | [], _ :: _ => .lt
  | _ :: _, [] => .gt

def TVal.cmpPairs {σ : Type} (c : σ → σ → Ordering) :
    List (TVal σ × TVal σ) → List (TVal σ × TVal σ) → Ordering
  | (k, v) :: xs, (k', v') :: ys =>
    match TVal.cmp c k k' with
    | .eq =>
      match TVal.cmp c v v' with
      | .eq => TVal.cmpPairs c xs ys
      | o => o
    | o => o
  | [], [] => .eq
  | [], _ :: _ => .lt
  | _ :: _, [] => .gt
end

/-! The equality test on the value tree (`impl PartialEq for ValueTemplate`):
same-kind values compare structurally (floats through `OrderedFloat`
equality on the rank), different kinds are unequal. -/
mutual
def TVal.beq {σ : Type} (e : σ → σ → Bool) : TVal σ → TVal σ → Bool
  | .bool a, .bool b => a == b
  | .u8 a, .u8 b => a == b
  | .u16 a, .u16 b => a == b
  | .u32 a, .u32 b => a == b
  | .u64 a, .u64 b => a == b
  | .i8 a, .i8 b => a == b
  | .i16 a, .i16 b => a == b
  | .i32 a, .i32 b => a == b
  | .i64 a, .i64 b => a == b
  | .f32 a, .f32 b => a == b
  | .f64 a, .f64 b => a == b
  | .char a, .char b => a == b
  | .str a, .str b => e a b
  | .unit, .unit => true
  | .option a, .option b =>
    match a, b with
    | none, none => true
    | some x, some y => TVal.beq e x y
    | _, _ => false
  | .newtype a, .newtype b => TVal.beq e a b
  | .seq a, .seq b => TVal.beqList e a b
  | .map a, .map b => TVal.beqPairs e a b
  | .bytes a, .bytes b => a == b
  | _, _ => false

def TVal.beqList {σ : Type} (e : σ → σ → Bool) :
    List (TVal σ) → List (TVal σ) → Bool
  | x :: xs, y :: ys => TVal.beq e x y && TVal.beqList e xs ys
  | [], [] => true
  | [], _ :: _ => false
  | _ :: _, [] => false

def TVal.beqPairs {σ : Type} (e : σ → σ → Bool) :
    List (TVal σ × TVal σ) → List (TVal σ × TVal σ) → Bool
  | (k, v) :: xs, (k', v') :: ys =>
    TVal.beq e k k' && (TVal.beq e v v' && TVal.beqPairs e xs ys)
  | [], [] => true
  | [], _ :: _ => false
  | _ :: _, [] => false
end

/-- The comparator of `impl Ord for ValueTemplate`. -/
def ValueTemplate.cmp : ValueTemplate → ValueTemplate → Ordering :=
  TVal.cmp chunksCmp

/-- The equality test of `impl PartialEq for ValueTemplate`. -/
def ValueTemplate.beq : ValueTemplate → ValueTemplate → Bool :=
  TVal.beq chunksBeq

/-- The comparator of `serde_value::Value`'s `Ord`, which orders the
`BTreeMap`s appearing in a configuration value. -/
def Value.cmp : Value → Value → Ordering :=
  TVal.cmp strCmp

/-! ## Referenced keys (`ValueTemplate::keys`, `Template::new`)

The source accumulates the MDC key of every `Chunk::Mdc` in the tree into
a `HashSet<String>`; only membership in the set is determined by the code,
so we collect the keys into a list and reason about membership. -/

mutual
def TVal.keysList : ValueTemplate → List String
  | .map m => TVal.keysPairs m
  | .newtype v => TVal.keysList v
  | .option none => []
  | .option (some v) => TVal.keysList v
  | .seq vs => TVal.keysSeq vs
  | .str chunks =>
    chunks.filterMap fun ch =>
      match ch with
      | .mdc k _ => some k
      | .text _ => none
  | _ => []

def TVal.keysSeq : List ValueTemplate → List String
  | [] => []
  | v :: r => TVal.keysList v ++ TVal.keysSeq r

def TVal.keysPairs : List (ValueTemplate × ValueTemplate) → List String
  | [] => []
  | (k, v) :: r => TVal.keysList k ++ (TVal.keysList v ++ TVal.keysPairs r)
end

/-! ## Map well-formedness and sorted insertion -/

/-- Strict sortedness of a list under a comparator: every adjacent pair
compares `.lt`. This is the `BTreeMap` key invariant on its iteration
sequence. -/
def chainLt {α : Type} (c : α → α → Ordering) : List α → Bool
  | [] => true
  | [_] => true
  | x :: y :: r =>
    (match c x y with
     | .lt => true
     | _ => false) &&
      chainLt c (y :: r)

/-- Insertion into the sorted pair list representing a `BTreeMap`: replaces
the value at a key comparing `.eq`, otherwise inserts at the sorted
position. -/
def btInsert {α β : Type} (c : α → α → Ordering) (key : α) (val : β) :
    List (α × β) → List (α × β)
  | [] => [(key, val)]
  | (k', v') :: r =>
    match c key k' with
    | .lt => (key, val) :: (k', v') :: r
    | .eq => (key, val) :: r
    | .gt => (k', v') :: btInsert c key val r

/-! The `BTreeMap` validity predicate: every map node's key sequence is
strictly sorted under the tree order. Any value produced by actual
`BTreeMap`s satisfies it. -/
mutual
def TVal.btWf {σ : Type} (c : σ → σ → Ordering) : TVal σ → Bool
  | .map m => chainLt (TVal.cmp c) (m.map Prod.fst) && TVal.btWfPairs c m
  | .newtype v => TVal.btWf c v
  | .option none => true
  | .option (some v) => TVal.btWf c v
  | .seq vs => TVal.btWfList c vs
  | _ => true

def TVal.btWfList {σ : Type} (c : σ → σ → Ordering) : List (TVal σ) → Bool
  | [] => true
  | v :: r => TVal.btWf c v && TVal.btWfList c r

def TVal.btWfPairs {σ : Type} (c : σ → σ → Ordering) :
    List (TVal σ × TVal σ) → Bool
  | [] => true
  | (k, v) :: r => TVal.btWf c k && (TVal.btWf c v && TVal.btWfPairs c r)
end

/-! A tree with no string leaf anywhere. -/
mutual
def TVal.strFree {σ : Type} : TVal σ → Bool
  | .map m => TVal.strFreePairs m
  | .newtype v => TVal.strFree v
  | .option none => true
  | .option (some v) => TVal.strFree v
  | .seq vs => TVal.strFreeList vs
  | .str _ => false
  | _ => true

def TVal.strFreeList {σ : Type} : List (TVal σ) → Bool
  | [] => true
  | v :: r => TVal.strFree v && TVal.strFreeList r

def TVal.strFreePairs {σ : Type} : List (TVal σ × TVal σ) → Bool
  | [] => true
  | (k, v) :: r => TVal.strFree k && (TVal.strFree v && TVal.strFreePairs r)
end

/-! ## Template construction (`ValueTemplate::new`) -/

/-- Conversion of one parsed piece sequence into chunks, following the
loop body of `ValueTemplate::new`'s `Value::String` arm: a `Text` piece
becomes a text chunk; an `Argument` must be named `mdc` and must carry one
argument (the key) or two (key and literal default), anything else fails
the build; an `Error` piece fails the build. `s` is the raw pattern
string, used only in error messages. -/
def chunksOfPieces (s : String) : List Piece → Except String (List Chunk)
  | [] => .ok []
  | .text t :: rest => do
    let cs ← chunksOfPieces s rest
    .ok (.text t :: cs)
  | .argument nm args :: rest =>
    if nm = "mdc" then
      match args with
      | [] => .error ("expected 1 or 2 arguments: `" ++ s ++ "`")
      | a :: others =>
        if others.length > 1 then
          .error ("expected 1 or 2 arguments: `" ++ s ++ "`")
        else do
          let cs ← chunksOfPieces s rest
          .ok (.mdc a others.head? :: cs)
    else .error ("unknown argument `" ++ nm ++ "`: `" ++ s ++ "`")
  | .error e :: _ => .error (e ++ ": `" ++ s ++ "`")

/-! `ValueTemplate::new`: mirrors the input tree node for node; map entries
are rebuilt by `BTreeMap` insertion under the `ValueTemplate` order; string
leaves are parsed (the parser passed explicitly as `parse`) and converted
to chunks; the first failure aborts the whole build. -/
mutual
def ValueTemplate.new (parse : String → List Piece) :
    Value → Except String ValueTemplate
  | .map m => do
    let m2 ← ValueTemplate.newPairs parse m []
    .ok (.map m2)
  | .newtype v => do
    let t ← ValueTemplate.new parse v
    .ok (.newtype t)
  | .option none => .ok (.option none)
  | .option (some v) => do
    let t ← ValueTemplate.new parse v
    .ok (.option (some t))
  | .seq vs => do
    let ts ← ValueTemplate.newList parse vs
    .ok (.seq ts)
  | .str s => do
    let cs ← chunksOfPieces s (parse s)
    .ok (.str cs)
  | .bool b => .ok (.bool b)
  | .bytes b => .ok (.bytes b)
  | .char ch => .ok (.char ch)
  | .f32 r => .ok (.f32 r)
  | .f64 r => .ok (.f64 r)
  | .i8 n => .ok (.i8 n)
  | .i16 n => .ok (.i16 n)
  | .i32 n => .ok (.i32 n)
  | .i64 n => .ok (.i64 n)
  | .u8 n => .ok (.u8 n)
  | .u16 n => .ok (.u16 n)
  | .u32 n => .ok (.u32 n)
  | .u64 n => .ok (.u64 n)
  | .unit => .ok .unit

def ValueTemplate.newPairs (parse : String → List Piece) :
    List (Value × Value) → List (ValueTemplate × ValueTemplate) →
      Except String (List (ValueTemplate × ValueTemplate))
  | [], acc => .ok acc
  | (k, v) :: rest, acc => do
    let k' ← ValueTemplate.new parse k
    let v' ← ValueTemplate.new parse v
    ValueTemplate.newPairs parse rest (btInsert ValueTemplate.cmp k' v' acc)

def ValueTemplate.newList (parse : String → List Piece) :
    List Value → Except String (List ValueTemplate)
  | [] => .ok []
  | v :: rest => do
    let t ← ValueTemplate.new parse v
    let ts ← ValueTemplate.newList parse rest
    .ok (t :: ts)
end

/-! ## Template expansion (`ValueTemplate::expand`) -/

/-- Expansion of one string leaf's chunk sequence against the MDC,
following the `ValueTemplate::String` arm of `expand`: text chunks are
copied verbatim; an MDC chunk takes the present value, else the literal
default, else fails with the missing-key error, aborting the whole
expansion. -/
def expandChunks (ctx : String → Option String) :
    List Chunk → Except String String
  | [] => .ok ""
  | .text t :: rest => do
    let s ← expandChunks ctx rest
    .ok (t ++ s)
  | .mdc k d :: rest =>
    match ctx k, d with
    | some v, _ => do
      let s ← expandChunks ctx rest
      .ok (v ++ s)
    | none, some dv => do
      let s ← expandChunks ctx rest
      .ok (dv ++ s)
    | none, none => .error ("MDC key `" ++ k ++ "` not present")

/-! `ValueTemplate::expand`: walks the built tree producing a value of
identical shape; map entries are rebuilt by `BTreeMap` insertion under the
`serde_value::Value` order; the first missing MDC key aborts the whole
expansion. -/
mutual
def ValueTemplate.expand (ctx : String → Option String) :
    ValueTemplate → Except String Value
  | .map m => do
    let m2 ← ValueTemplate.expandPairs ctx m []
    .ok (.map m2)
  | .newtype v => do
    let w ← ValueTemplate.expand ctx v
    .ok (.newtype w)
  | .option none => .ok (.option none)
  | .option (some v) => do
    let w ← ValueTemplate.expand ctx v
    .ok (.option (some w))
  | .seq vs => do
    let ws ← ValueTemplate.expandList ctx vs
    .ok (.seq ws)
  | .str chunks => do
    let s ← expandChunks ctx chunks
    .ok (.str s)
  | .bool b => .ok (.bool b)
  | .bytes b => .ok (.bytes b)
  | .char ch => .ok (.char ch)
  | .f32 r => .ok (.f32 r)
  | .f64 r => .ok (.f64 r)
  | .i8 n => .ok (.i8 n)
  | .i16 n => .ok (.i16 n)
  | .i32 n => .ok (.i32 n)
  | .i64 n => .ok (.i64 n)
  | .u8 n => .ok (.u8 n)
  | .u16 n => .ok (.u16 n)
  | .u32 n => .ok (.u32 n)
  | .u64 n => .ok (.u64 n)
  | .unit => .ok .unit

def ValueTemplate.expandPairs (ctx : String → Option String) :
    List (ValueTemplate × ValueTemplate) → List (Value × Value) →
      Except String (List (Value × Value))
  | [], acc => .ok acc
  | (k, v) :: rest, acc => do
    let k' ← ValueTemplate.expand ctx k
    let v' ← ValueTemplate.expand ctx v
    ValueTemplate.expandPairs ctx rest (btInsert Value.cmp k' v' acc)

def ValueTemplate.expandList (ctx : String → Option String) :
    List ValueTemplate → Except String (List Value)
  | [] => .ok []
  | v :: rest => do
    let w ← ValueTemplate.expand ctx v
    let ws ← ValueTemplate.expandList ctx rest
    .ok (w :: ws)
end

/-! ## `Template` (the public type of `template.rs`) -/

/-- `struct Template`: the built value template together with the
referenced MDC keys. The source stores the keys in a `HashSet<String>`;
we model the set by the list of its elements in iteration order. -/
structure Template where
  value : ValueTemplate
  keys : List String

/-- What `Template::new` guarantees about the stored key collection: it is
a set (no duplicates) whose members are exactly the keys collected from
the tree. The iteration order itself is left unspecified by `HashSet`. -/
def Template.Wf (t : Template) : Prop :=
  t.keys.Nodup ∧ (∀ k ∈ t.keys, k ∈ t.value.keysList) ∧
    ∀ k ∈ t.value.keysList, k ∈ t.keys

/-- `Template::key`: walks the stored key collection in its iteration
order; a present MDC value contributes its decimal byte length followed by
the value itself (`write!(s, "{}{}", k.len(), k)`), an absent one
contributes the sentinel `'-'`. -/
def Template.key (t : Template) (ctx : String → Option String) : String :=
  t.keys.foldl
    (fun s k =>
      match ctx k with
      | some v => s ++ (toString v.utf8ByteSize ++ v)
      | none => s ++ "-")
    ""

/-! ## Lawfulness of the tree order -/

theorem TVal.cmp_of_disc_ne {σ : Type} {c : σ → σ → Ordering}
    {a b : TVal σ} (h : a.discriminant ≠ b.discriminant) :
    TVal.cmp c a b = cmpOf a.discriminant b.discriminant := by
  cases a <;> cases b <;> first
    | exact absurd rfl h
    | rfl

theorem TVal.ne_of_disc_ne {σ : Type} {a b : TVal σ}
    (h : a.discriminant ≠ b.discriminant) : a ≠ b :=
  fun he => h (he ▸ rfl)

theorem TVal.cmpList_eq_listCmp {σ : Type} {c : σ → σ → Ordering} :
    ∀ l₁ l₂ : List (TVal σ),
      TVal.cmpList c l₁ l₂ = listCmp (TVal.cmp c) l₁ l₂
  | x :: xs, y :: ys => by
    simp only [TVal.cmpList, listCmp]
    cases TVal.cmp c x y <;>
      simp [TVal.cmpList_eq_listCmp xs ys]
  | [], ys => by cases ys <;> rfl
  | _ :: _, [] => rfl

theorem TVal.cmpPairs_eq_listCmp {σ : Type} {c : σ → σ → Ordering} :
    ∀ l₁ l₂ : List (TVal σ × TVal σ),
      TVal.cmpPairs c l₁ l₂ =
        listCmp (prodCmp (TVal.cmp c) (TVal.cmp c)) l₁ l₂
  | (k, v) :: xs, (k', v') :: ys => by
    simp only [TVal.cmpPairs, listCmp, prodCmp]
    cases TVal.cmp c k k' <;>
      cases TVal.cmp c v v' <;>
        simp [TVal.cmpPairs_eq_listCmp xs ys]
  | [], ys => by cases ys <;> rfl
  | _ :: _, [] => rfl

theorem TVal.sizeOf_mem_seq {σ : Type} [SizeOf σ] {vs : List (TVal σ)}
    {x : TVal σ} (hx : x ∈ vs) : sizeOf x < sizeOf (TVal.seq vs) := by
  have := List.sizeOf_lt_of_mem hx
  simp only [TVal.seq.sizeOf_spec]
  omega

theorem TVal.sizeOf_mem_map {σ : Type} [SizeOf σ]
    {m : List (TVal σ × TVal σ)} {p : TVal σ × TVal σ} (hp : p ∈ m) :
    sizeOf p.1 < sizeOf (TVal.map m) ∧ sizeOf p.2 < sizeOf (TVal.map m) := by
  have h := List.sizeOf_lt_of_mem hp
  obtain ⟨k, v⟩ := p
  simp only [TVal.map.sizeOf_spec]
  simp only [Prod.mk.sizeOf_spec] at h
  omega

theorem TVal.eq_map_of_disc {σ : Type} {b : TVal σ}
    (h : b.discriminant = 17) : ∃ m, b = .map m := by
  cases b <;> simp [TVal.discriminant] at h
  exact ⟨_, rfl⟩

theorem TVal.eq_newtype_of_disc {σ : Type} {b : TVal σ}
    (h : b.discriminant = 15) : ∃ v, b = .newtype v := by
  cases b <;> simp [TVal.discriminant] at h
  exact ⟨_, rfl⟩

theorem TVal.eq_option_of_disc {σ : Type} {b : TVal σ}
    (h : b.discriminant = 14) : ∃ v, b = .option v := by
  cases b <;> simp [TVal.discriminant] at h
  exact ⟨_, rfl⟩

theorem TVal.eq_seq_of_disc {σ : Type} {b : TVal σ}
    (h : b.discriminant = 16) : ∃ vs, b = .seq vs := by
  cases b <;> simp [TVal.discriminant] at h
  exact ⟨_, rfl⟩

theorem TVal.eq_str_of_disc {σ : Type} {b : TVal σ}
    (h : b.discriminant = 12) : ∃ s, b = .str s := by
  cases b <;> simp [TVal.discriminant] at h
  exact ⟨_, rfl⟩

theorem TVal.eq_bool_of_disc {σ : Type} {b : TVal σ}
    (h : b.discriminant = 0) : ∃ x, b = .bool x := by
  cases b <;> simp [TVal.discriminant] at h
  exact ⟨_, rfl⟩

theorem TVal.eq_bytes_of_disc {σ : Type} {b : TVal σ}
    (h : b.discriminant = 18) : ∃ x, b = .bytes x := by
  cases b <;> simp [TVal.discriminant] at h
  exact ⟨_, rfl⟩

theorem TVal.eq_char_of_disc {σ : Type} {b : TVal σ}
    (h : b.discriminant = 11) : ∃ x, b = .char x := by
  cases b <;> simp [TVal.discriminant] at h
  exact ⟨_, rfl⟩

theorem TVal.eq_f32_of_disc {σ : Type} {b : TVal σ}
    (h : b.discriminant = 9) : ∃ x, b = .f32 x := by
  cases b <;> simp [TVal.discriminant] at h
  exact ⟨_, rfl⟩

theorem TVal.eq_f64_of_disc {σ : Type} {b : TVal σ}
    (h : b.discriminant = 10) : ∃ x, b = .f64 x := by
  cases b <;> simp [TVal.discriminant] at h
  exact ⟨_, rfl⟩

theorem TVal.eq_i8_of_disc {σ : Type} {b : TVal σ}
    (h : b.discriminant = 5) : ∃ x, b = .i8 x := by
  cases b <;> simp [TVal.discriminant] at h
  exact ⟨_, rfl⟩

theorem TVal.eq_i16_of_disc {σ : Type} {b : TVal σ}
    (h : b.discriminant = 6) : ∃ x, b = .i16 x := by
  cases b <;> simp [TVal.discriminant] at h
  exact ⟨_, rfl⟩

theorem TVal.eq_i32_of_disc {σ : Type} {b : TVal σ}
    (h : b.discriminant = 7) : ∃ x, b = .i32 x := by
  cases b <;> simp [TVal.discriminant] at h
  exact ⟨_, rfl⟩

theorem TVal.eq_i64_of_disc {σ : Type} {b : TVal σ}
    (h : b.discriminant = 8) : ∃ x, b = .i64 x := by
  cases b <;> simp [TVal.discriminant] at h
  exact ⟨_, rfl⟩

theorem TVal.eq_u8_of_disc {σ : Type} {b : TVal σ}
    (h : b.discriminant = 1) : ∃ x, b = .u8 x := by
  cases b <;> simp [TVal.discriminant] at h
  exact ⟨_, rfl⟩

theorem TVal.eq_u16_of_disc {σ : Type} {b : TVal σ}
    (h : b.discriminant = 2) : ∃ x, b = .u16 x := by
  cases b <;> simp [TVal.discriminant] at h
  exact ⟨_, rfl⟩

theorem TVal.eq_u32_of_disc {σ : Type} {b : TVal σ}
    (h : b.discriminant = 3) : ∃ x, b = .u32 x := by
  cases b <;> simp [TVal.discriminant] at h
  exact ⟨_, rfl⟩

theorem TVal.eq_u64_of_disc {σ : Type} {b : TVal σ}
    (h : b.discriminant = 4) : ∃ x, b = .u64 x := by
  cases b <;> simp [TVal.discriminant] at h
  exact ⟨_, rfl⟩

theorem TVal.eq_unit_of_disc {σ : Type} {b : TVal σ}
    (h : b.discriminant = 13) : b = .unit := by
  cases b <;> simp [TVal.discriminant] at h
  rfl

theorem TVal.disc_eq_of_cmp_eq {σ : Type} {c : σ → σ → Ordering}
    {a b : TVal σ} (h : TVal.cmp c a b = .eq) :
    a.discriminant = b.discriminant := by
  by_cases hd : a.discriminant = b.discriminant
  · exact hd
  · rw [TVal.cmp_of_disc_ne hd] at h
    exact absurd (cmpOf_eq_eq.mp h) hd

theorem TVal.disc_lt_of_cmp_lt {σ : Type} {c : σ → σ → Ordering}
    {a b : TVal σ} (hd : a.discriminant ≠ b.discriminant)
    (h : TVal.cmp c a b = .lt) : a.discriminant < b.discriminant := by
  rw [TVal.cmp_of_disc_ne hd] at h
  exact cmpOf_eq_lt.mp h

theorem TVal.cmp_lt_of_disc_lt {σ : Type} {c : σ → σ → Ordering}
    {a b : TVal σ} (h : a.discriminant < b.discriminant) :
    TVal.cmp c a b = .lt := by
  rw [TVal.cmp_of_disc_ne (Nat.ne_of_lt h)]
  exact cmpOf_eq_lt.mpr h

theorem TVal.cmp_map_eq {σ : Type} {c : σ → σ → Ordering}
    {m₁ m₂ : List (TVal σ × TVal σ)} :
    TVal.cmp c (.map m₁) (.map m₂) =
      listCmp (prodCmp (TVal.cmp c) (TVal.cmp c)) m₁ m₂ :=
  TVal.cmpPairs_eq_listCmp m₁ m₂

theorem TVal.cmp_seq_eq {σ : Type} {c : σ → σ → Ordering}
    {l₁ l₂ : List (TVal σ)} :
    TVal.cmp c (.seq l₁) (.seq l₂) = listCmp (TVal.cmp c) l₁ l₂ :=
  TVal.cmpList_eq_listCmp l₁ l₂

theorem TVal.cmp_option_eq {σ : Type} {c : σ → σ → Ordering}
    {v w : Option (TVal σ)} :
    TVal.cmp c (.option v) (.option w) = optionCmp (TVal.cmp c) v w := by
  cases v <;> cases w <;> rfl

theorem TVal.sizeOf_mem_option {σ : Type} [SizeOf σ] {v : Option (TVal σ)}
    {x : TVal σ} (hx : x ∈ v) : sizeOf x < sizeOf (TVal.option v) := by
  cases v with
  | none => simp at hx
  | some w =>
    have hxw : w = x := by simpa using hx
    subst hxw
    simp only [TVal.option.sizeOf_spec, Option.some.sizeOf_spec]
    omega

theorem TVal.sizeOf_newtype {σ : Type} [SizeOf σ] {v : TVal σ} :
    sizeOf v < sizeOf (TVal.newtype v) := by
  simp only [TVal.newtype.sizeOf_spec]
  omega

theorem TVal.lawAt_cmp_aux {σ : Type} {c : σ → σ → Ordering}
    (hc : ∀ s, LawAt c s) :
    ∀ (n : Nat) (a : TVal σ), sizeOf a < n → LawAt (TVal.cmp c) a := by
  intro n
  induction n with
  | zero => intro a ha; omega
  | succ n ih =>
    intro a ha
    have IH : ∀ b : TVal σ, sizeOf b < sizeOf a → LawAt (TVal.cmp c) b :=
      fun b hb => ih b (by omega)
    constructor
    · -- eq_iff
      intro y
      by_cases hd : a.discriminant = y.discriminant
      · cases a with
        | map m =>
          obtain ⟨m₂, rfl⟩ := TVal.eq_map_of_disc hd.symm
          have hm : ∀ p ∈ m, LawAt (prodCmp (TVal.cmp c) (TVal.cmp c)) p :=
            fun p hp => lawAt_prodCmp (IH p.1 (TVal.sizeOf_mem_map hp).1)
              (IH p.2 (TVal.sizeOf_mem_map hp).2)
          rw [TVal.cmp_map_eq, listCmp_eq_eq hm]
          simp
        | newtype v =>
          obtain ⟨w, rfl⟩ := TVal.eq_newtype_of_disc hd.symm
          show TVal.cmp c v w = .eq ↔ _
          rw [(IH v TVal.sizeOf_newtype).eq_iff w]
          simp
        | option v =>
          obtain ⟨w, rfl⟩ := TVal.eq_option_of_disc hd.symm
          have ho := lawAt_optionCmp
            (fun x hx => IH x (TVal.sizeOf_mem_option hx))
          rw [TVal.cmp_option_eq, ho.eq_iff w]
          simp
        | seq vs =>
          obtain ⟨ws, rfl⟩ := TVal.eq_seq_of_disc hd.symm
          have hs : ∀ x ∈ vs, LawAt (TVal.cmp c) x :=
            fun x hx => IH x (TVal.sizeOf_mem_seq hx)
          rw [TVal.cmp_seq_eq, listCmp_eq_eq hs]
          simp
        | str s =>
          obtain ⟨s₂, rfl⟩ := TVal.eq_str_of_disc hd.symm
          show c s s₂ = .eq ↔ _
          rw [(hc s).eq_iff s₂]
          simp
        | bool x =>
          obtain ⟨x₂, rfl⟩ := TVal.eq_bool_of_disc hd.symm
          show cmpOf x x₂ = .eq ↔ _
          rw [cmpOf_eq_eq]
          simp
        | bytes x =>
          obtain ⟨x₂, rfl⟩ := TVal.eq_bytes_of_disc hd.symm
          show listCmp cmpOf x x₂ = .eq ↔ _
          rw [listCmp_eq_eq (fun t _ => lawAt_cmpOf t)]
          simp
        | char x =>
          obtain ⟨x₂, rfl⟩ := TVal.eq_char_of_disc hd.symm
          show cmpOf x x₂ = .eq ↔ _
          rw [cmpOf_eq_eq]
          simp
        | f32 x =>
          obtain ⟨x₂, rfl⟩ := TVal.eq_f32_of_disc hd.symm
          show cmpOf x x₂ = .eq ↔ _
          rw [cmpOf_eq_eq]
          simp
        | f64 x =>
          obtain ⟨x₂, rfl⟩ := TVal.eq_f64_of_disc hd.symm
          show cmpOf x x₂ = .eq ↔ _
          rw [cmpOf_eq_eq]
          simp
        | i8 x =>
          obtain ⟨x₂, rfl⟩ := TVal.eq_i8_of_disc hd.symm
          show cmpOf x x₂ = .eq ↔ _
          rw [cmpOf_eq_eq]
          simp
        | i16 x =>
          obtain ⟨x₂, rfl⟩ := TVal.eq_i16_of_disc hd.symm
          show cmpOf x x₂ = .eq ↔ _
          rw [cmpOf_eq_eq]
          simp
        | i32 x =>
          obtain ⟨x₂, rfl⟩ := TVal.eq_i32_of_disc hd.symm
          show cmpOf x x₂ = .eq ↔ _
          rw [cmpOf_eq_eq]
          simp
        | i64 x =>
          obtain ⟨x₂, rfl⟩ := TVal.eq_i64_of_disc hd.symm
          show cmpOf x x₂ = .eq ↔ _
          rw [cmpOf_eq_eq]
          simp
        | u8 x =>
          obtain ⟨x₂, rfl⟩ := TVal.eq_u8_of_disc hd.symm
          show cmpOf x x₂ = .eq ↔ _
          rw [cmpOf_eq_eq]
          simp
        | u16 x =>
          obtain ⟨x₂, rfl⟩ := TVal.eq_u16_of_disc hd.symm
          show cmpOf x x₂ = .eq ↔ _
          rw [cmpOf_eq_eq]
          simp
        | u32 x =>
          obtain ⟨x₂, rfl⟩ := TVal.eq_u32_of_disc hd.symm
          show cmpOf x x₂ = .eq ↔ _
          rw [cmpOf_eq_eq]
          simp
        | u64 x =>
          obtain ⟨x₂, rfl⟩ := TVal.eq_u64_of_disc hd.symm
          show cmpOf x x₂ = .eq ↔ _
          rw [cmpOf_eq_eq]
          simp
        | unit =>
          obtain rfl := TVal.eq_unit_of_disc hd.symm
          exact iff_of_true rfl rfl
      · rw [TVal.cmp_of_disc_ne hd]
        exact iff_of_false (fun he => hd (cmpOf_eq_eq.mp he))
          (TVal.ne_of_disc_ne hd)
    · -- swap_eq
      intro y
      by_cases hd : a.discriminant = y.discriminant
      · cases a with
        | map m =>
          obtain ⟨m₂, rfl⟩ := TVal.eq_map_of_disc hd.symm
          have hm : ∀ p ∈ m, LawAt (prodCmp (TVal.cmp c) (TVal.cmp c)) p :=
            fun p hp => lawAt_prodCmp (IH p.1 (TVal.sizeOf_mem_map hp).1)
              (IH p.2 (TVal.sizeOf_mem_map hp).2)
          rw [TVal.cmp_map_eq, TVal.cmp_map_eq]
          exact listCmp_swap hm
        | newtype v =>
          obtain ⟨w, rfl⟩ := TVal.eq_newtype_of_disc hd.symm
          exact (IH v TVal.sizeOf_newtype).swap_eq w
        | option v =>
          obtain ⟨w, rfl⟩ := TVal.eq_option_of_disc hd.symm
          have ho := lawAt_optionCmp
            (fun x hx => IH x (TVal.sizeOf_mem_option hx))
          rw [TVal.cmp_option_eq, TVal.cmp_option_eq]
          exact ho.swap_eq w
        | seq vs =>
          obtain ⟨ws, rfl⟩ := TVal.eq_seq_of_disc hd.symm
          have hs : ∀ x ∈ vs, LawAt (TVal.cmp c) x :=
            fun x hx => IH x (TVal.sizeOf_mem_seq hx)
          rw [TVal.cmp_seq_eq, TVal.cmp_seq_eq]
          exact listCmp_swap hs
        | str s =>
          obtain ⟨s₂, rfl⟩ := TVal.eq_str_of_disc hd.symm
          exact (hc s).swap_eq s₂
        | bool x =>
          obtain ⟨x₂, rfl⟩ := TVal.eq_bool_of_disc hd.symm
          exact (lawAt_cmpOf x).swap_eq x₂
        | bytes x =>
          obtain ⟨x₂, rfl⟩ := TVal.eq_bytes_of_disc hd.symm
          exact listCmp_swap (fun t _ => lawAt_cmpOf t)
        | char x =>
          obtain ⟨x₂, rfl⟩ := TVal.eq_char_of_disc hd.symm
          exact (lawAt_cmpOf x).swap_eq x₂
        | f32 x =>
          obtain ⟨x₂, rfl⟩ := TVal.eq_f32_of_disc hd.symm
          exact (lawAt_cmpOf x).swap_eq x₂
        | f64 x =>
          obtain ⟨x₂, rfl⟩ := TVal.eq_f64_of_disc hd.symm
          exact (lawAt_cmpOf x).swap_eq x₂
        | i8 x =>
          obtain ⟨x₂, rfl⟩ := TVal.eq_i8_of_disc hd.symm
          exact (lawAt_cmpOf x).swap_eq x₂
        | i16 x =>
          obtain ⟨x₂, rfl⟩ := TVal.eq_i16_of_disc hd.symm
          exact (lawAt_cmpOf x).swap_eq x₂
        | i32 x =>
          obtain ⟨x₂, rfl⟩ := TVal.eq_i32_of_disc hd.symm
          exact (lawAt_cmpOf x).swap_eq x₂
        | i64 x =>
          obtain ⟨x₂, rfl⟩ := TVal.eq_i64_of_disc hd.symm
          exact (lawAt_cmpOf x).swap_eq x₂
        | u8 x =>
          obtain ⟨x₂, rfl⟩ := TVal.eq_u8_of_disc hd.symm
          exact (lawAt_cmpOf x).swap_eq x₂
        | u16 x =>
          obtain ⟨x₂, rfl⟩ := TVal.eq_u16_of_disc hd.symm
          exact (lawAt_cmpOf x).swap_eq x₂
        | u32 x =>
          obtain ⟨x₂, rfl⟩ := TVal.eq_u32_of_disc hd.symm
          exact (lawAt_cmpOf x).swap_eq x₂
        | u64 x =>
          obtain ⟨x₂, rfl⟩ := TVal.eq_u64_of_disc hd.symm
          exact (lawAt_cmpOf x).swap_eq x₂
        | unit =>
          obtain rfl := TVal.eq_unit_of_disc hd.symm
          rfl
      · rw [TVal.cmp_of_disc_ne hd, TVal.cmp_of_disc_ne (Ne.symm hd)]
        exact (lawAt_cmpOf _).swap_eq _
    · -- lt_trans
      intro y z h1 h2
      by_cases hd1 : a.discriminant = y.discriminant
      · by_cases hd2 : y.discriminant = z.discriminant
        · cases a with
          | map m =>
            obtain ⟨m₂, rfl⟩ := TVal.eq_map_of_disc hd1.symm
            obtain ⟨m₃, rfl⟩ := TVal.eq_map_of_disc hd2.symm
            have hm : ∀ p ∈ m, LawAt (prodCmp (TVal.cmp c) (TVal.cmp c)) p :=
              fun p hp => lawAt_prodCmp (IH p.1 (TVal.sizeOf_mem_map hp).1)
                (IH p.2 (TVal.sizeOf_mem_map hp).2)
            rw [TVal.cmp_map_eq] at h1 h2 ⊢
            exact listCmp_lt_trans hm h1 h2
          | newtype v =>
            obtain ⟨w, rfl⟩ := TVal.eq_newtype_of_disc hd1.symm
            obtain ⟨u, rfl⟩ := TVal.eq_newtype_of_disc hd2.symm
            exact (IH v TVal.sizeOf_newtype).lt_trans w u h1 h2
          | option v =>
            obtain ⟨w, rfl⟩ := TVal.eq_option_of_disc hd1.symm
            obtain ⟨u, rfl⟩ := TVal.eq_option_of_disc hd2.symm
            have ho := lawAt_optionCmp
              (fun x hx => IH x (TVal.sizeOf_mem_option hx))
            rw [TVal.cmp_option_eq] at h1 h2 ⊢
            exact ho.lt_trans w u h1 h2
          | seq vs =>
            obtain ⟨ws, rfl⟩ := TVal.eq_seq_of_disc hd1.symm
            obtain ⟨us, rfl⟩ := TVal.eq_seq_of_disc hd2.symm
            have hs : ∀ x ∈ vs, LawAt (TVal.cmp c) x :=
              fun x hx => IH x (TVal.sizeOf_mem_seq hx)
            rw [TVal.cmp_seq_eq] at h1 h2 ⊢
            exact listCmp_lt_trans hs h1 h2
          | str s =>
            obtain ⟨s₂, rfl⟩ := TVal.eq_str_of_disc hd1.symm
            obtain ⟨s₃, rfl⟩ := TVal.eq_str_of_disc hd2.symm
            exact (hc s).lt_trans s₂ s₃ h1 h2
          | bool x =>
            obtain ⟨x₂, rfl⟩ := TVal.eq_bool_of_disc hd1.symm
            obtain ⟨x₃, rfl⟩ := TVal.eq_bool_of_disc hd2.symm
            exact (lawAt_cmpOf x).lt_trans x₂ x₃ h1 h2
          | bytes x =>
            obtain ⟨x₂, rfl⟩ := TVal.eq_bytes_of_disc hd1.symm
            obtain ⟨x₃, rfl⟩ := TVal.eq_bytes_of_disc hd2.symm
            exact listCmp_lt_trans (fun t _ => lawAt_cmpOf t) h1 h2
          | char x =>
            obtain ⟨x₂, rfl⟩ := TVal.eq_char_of_disc hd1.symm
            obtain ⟨x₃, rfl⟩ := TVal.eq_char_of_disc hd2.symm
            exact (lawAt_cmpOf x).lt_trans x₂ x₃ h1 h2
          | f32 x =>
            obtain ⟨x₂, rfl⟩ := TVal.eq_f32_of_disc hd1.symm
            obtain ⟨x₃, rfl⟩ := TVal.eq_f32_of_disc hd2.symm
            exact (lawAt_cmpOf x).lt_trans x₂ x₃ h1 h2
          | f64 x =>
            obtain ⟨x₂, rfl⟩ := TVal.eq_f64_of_disc hd1.symm
            obtain ⟨x₃, rfl⟩ := TVal.eq_f64_of_disc hd2.symm
            exact (lawAt_cmpOf x).lt_trans x₂ x₃ h1 h2
          | i8 x =>
            obtain ⟨x₂, rfl⟩ := TVal.eq_i8_of_disc hd1.symm
            obtain ⟨x₃, rfl⟩ := TVal.eq_i8_of_disc hd2.symm
            exact (lawAt_cmpOf x).lt_trans x₂ x₃ h1 h2
          | i16 x =>
            obtain ⟨x₂, rfl⟩ := TVal.eq_i16_of_disc hd1.symm
            obtain ⟨x₃, rfl⟩ := TVal.eq_i16_of_disc hd2.symm
            exact (lawAt_cmpOf x).lt_trans x₂ x₃ h1 h2
          | i32 x =>
            obtain ⟨x₂, rfl⟩ := TVal.eq_i32_of_disc hd1.symm
            obtain ⟨x₃, rfl⟩ := TVal.eq_i32_of_disc hd2.symm
            exact (lawAt_cmpOf x).lt_trans x₂ x₃ h1 h2
          | i64 x =>
            obtain ⟨x₂, rfl⟩ := TVal.eq_i64_of_disc hd1.symm
            obtain ⟨x₃, rfl⟩ := TVal.eq_i64_of_disc hd2.symm
            exact (lawAt_cmpOf x).lt_trans x₂ x₃ h1 h2
          | u8 x =>
            obtain ⟨x₂, rfl⟩ := TVal.eq_u8_of_disc hd1.symm
            obtain ⟨x₃, rfl⟩ := TVal.eq_u8_of_disc hd2.symm
            exact (lawAt_cmpOf x).lt_trans x₂ x₃ h1 h2
          | u16 x =>
            obtain ⟨x₂, rfl⟩ := TVal.eq_u16_of_disc hd1.symm
            obtain ⟨x₃, rfl⟩ := TVal.eq_u16_of_disc hd2.symm
            exact (lawAt_cmpOf x).lt_trans x₂ x₃ h1 h2
          | u32 x =>
            obtain ⟨x₂, rfl⟩ := TVal.eq_u32_of_disc hd1.symm
            obtain ⟨x₃, rfl⟩ := TVal.eq_u32_of_disc hd2.symm
            exact (lawAt_cmpOf x).lt_trans x₂ x₃ h1 h2
          | u64 x =>
            obtain ⟨x₂, rfl⟩ := TVal.eq_u64_of_disc hd1.symm
            obtain ⟨x₃, rfl⟩ := TVal.eq_u64_of_disc hd2.symm
            exact (lawAt_cmpOf x).lt_trans x₂ x₃ h1 h2
          | unit =>
            obtain rfl := TVal.eq_unit_of_disc hd1.symm
            have h1x : (Ordering.eq : Ordering) = .lt := h1
            exact absurd h1x (by decide)
        · have hyz := TVal.disc_lt_of_cmp_lt hd2 h2
          exact TVal.cmp_lt_of_disc_lt (by omega)
      · have hay := TVal.disc_lt_of_cmp_lt hd1 h1
        by_cases hd2 : y.discriminant = z.discriminant
        · exact TVal.cmp_lt_of_disc_lt (by omega)
        · have hyz := TVal.disc_lt_of_cmp_lt hd2 h2
          exact TVal.cmp_lt_of_disc_lt (by omega)
    · -- lt_of_lt_of_eq
      intro y z h1 h2
      have hd2 : y.discriminant = z.discriminant := TVal.disc_eq_of_cmp_eq h2
      by_cases hd1 : a.discriminant = y.discriminant
      · cases a with
        | map m =>
          obtain ⟨m₂, rfl⟩ := TVal.eq_map_of_disc hd1.symm
          obtain ⟨m₃, rfl⟩ := TVal.eq_map_of_disc hd2.symm
          have hm : ∀ p ∈ m, LawAt (prodCmp (TVal.cmp c) (TVal.cmp c)) p :=
            fun p hp => lawAt_prodCmp (IH p.1 (TVal.sizeOf_mem_map hp).1)
              (IH p.2 (TVal.sizeOf_mem_map hp).2)
          rw [TVal.cmp_map_eq] at h1 h2 ⊢
          exact listCmp_lt_of_lt_of_eq hm h1 h2
        | newtype v =>
          obtain ⟨w, rfl⟩ := TVal.eq_newtype_of_disc hd1.symm
          obtain ⟨u, rfl⟩ := TVal.eq_newtype_of_disc hd2.symm
          exact (IH v TVal.sizeOf_newtype).lt_of_lt_of_eq w u h1 h2
        | option v =>
          obtain ⟨w, rfl⟩ := TVal.eq_option_of_disc hd1.symm
          obtain ⟨u, rfl⟩ := TVal.eq_option_of_disc hd2.symm
          have ho := lawAt_optionCmp
            (fun x hx => IH x (TVal.sizeOf_mem_option hx))
          rw [TVal.cmp_option_eq] at h1 h2 ⊢
          exact ho.lt_of_lt_of_eq w u h1 h2
        | seq vs =>
          obtain ⟨ws, rfl⟩ := TVal.eq_seq_of_disc hd1.symm
          obtain ⟨us, rfl⟩ := TVal.eq_seq_of_disc hd2.symm
          have hs : ∀ x ∈ vs, LawAt (TVal.cmp c) x :=
            fun x hx => IH x (TVal.sizeOf_mem_seq hx)
          rw [TVal.cmp_seq_eq] at h1 h2 ⊢
          exact listCmp_lt_of_lt_of_eq hs h1 h2
        | str s =>
          obtain ⟨s₂, rfl⟩ := TVal.eq_str_of_disc hd1.symm
          obtain ⟨s₃, rfl⟩ := TVal.eq_str_of_disc hd2.symm
          exact (hc s).lt_of_lt_of_eq s₂ s₃ h1 h2
        | bool x =>
          obtain ⟨x₂, rfl⟩ := TVal.eq_bool_of_disc hd1.symm
          obtain ⟨x₃, rfl⟩ := TVal.eq_bool_of_disc hd2.symm
          exact (lawAt_cmpOf x).lt_of_lt_of_eq x₂ x₃ h1 h2
        | bytes x =>
          obtain ⟨x₂, rfl⟩ := TVal.eq_bytes_of_disc hd1.symm
          obtain ⟨x₃, rfl⟩ := TVal.eq_bytes_of_disc hd2.symm
          exact listCmp_lt_of_lt_of_eq (fun t _ => lawAt_cmpOf t) h1 h2
        | char x =>
          obtain ⟨x₂, rfl⟩ := TVal.eq_char_of_disc hd1.symm
          obtain ⟨x₃, rfl⟩ := TVal.eq_char_of_disc hd2.symm
          exact (lawAt_cmpOf x).lt_of_lt_of_eq x₂ x₃ h1 h2
        | f32 x =>
          obtain ⟨x₂, rfl⟩ := TVal.eq_f32_of_disc hd1.symm
          obtain ⟨x₃, rfl⟩ := TVal.eq_f32_of_disc hd2.symm
          exact (lawAt_cmpOf x).lt_of_lt_of_eq x₂ x₃ h1 h2
        | f64 x =>
          obtain ⟨x₂, rfl⟩ := TVal.eq_f64_of_disc hd1.symm
          obtain ⟨x₃, rfl⟩ := TVal.eq_f64_of_disc hd2.symm
          exact (lawAt_cmpOf x).lt_of_lt_of_eq x₂ x₃ h1 h2
        | i8 x =>
          obtain ⟨x₂, rfl⟩ := TVal.eq_i8_of_disc hd1.symm
          obtain ⟨x₃, rfl⟩ := TVal.eq_i8_of_disc hd2.symm
          exact (lawAt_cmpOf x).lt_of_lt_of_eq x₂ x₃ h1 h2
        | i16 x =>
          obtain ⟨x₂, rfl⟩ := TVal.eq_i16_of_disc hd1.symm
          obtain ⟨x₃, rfl⟩ := TVal.eq_i16_of_disc hd2.symm
          exact (lawAt_cmpOf x).lt_of_lt_of_eq x₂ x₃ h1 h2
        | i32 x =>
          obtain ⟨x₂, rfl⟩ := TVal.eq_i32_of_disc hd1.symm
          obtain ⟨x₃, rfl⟩ := TVal.eq_i32_of_disc hd2.symm
          exact (lawAt_cmpOf x).lt_of_lt_of_eq x₂ x₃ h1 h2
        | i64 x =>
          obtain ⟨x₂, rfl⟩ := TVal.eq_i64_of_disc hd1.symm
          obtain ⟨x₃, rfl⟩ := TVal.eq_i64_of_disc hd2.symm
          exact (lawAt_cmpOf x).lt_of_lt_of_eq x₂ x₃ h1 h2
        | u8 x =>
          obtain ⟨x₂, rfl⟩ := TVal.eq_u8_of_disc hd1.symm
          obtain ⟨x₃, rfl⟩ := TVal.eq_u8_of_disc hd2.symm
          exact (lawAt_cmpOf x).lt_of_lt_of_eq x₂ x₃ h1 h2
        | u16 x =>
          obtain ⟨x₂, rfl⟩ := TVal.eq_u16_of_disc hd1.symm
          obtain ⟨x₃, rfl⟩ := TVal.eq_u16_of_disc hd2.symm
          exact (lawAt_cmpOf x).lt_of_lt_of_eq x₂ x₃ h1 h2
        | u32 x =>
          obtain ⟨x₂, rfl⟩ := TVal.eq_u32_of_disc hd1.symm
          obtain ⟨x₃, rfl⟩ := TVal.eq_u32_of_disc hd2.symm
          exact (lawAt_cmpOf x).lt_of_lt_of_eq x₂ x₃ h1 h2
        | u64 x =>
          obtain ⟨x₂, rfl⟩ := TVal.eq_u64_of_disc hd1.symm
          obtain ⟨x₃, rfl⟩ := TVal.eq_u64_of_disc hd2.symm
          exact (lawAt_cmpOf x).lt_of_lt_of_eq x₂ x₃ h1 h2
        | unit =>
          obtain rfl := TVal.eq_unit_of_disc hd1.symm
          have h1x : (Ordering.eq : Ordering) = .lt := h1
          exact absurd h1x (by decide)
      · have hay := TVal.disc_lt_of_cmp_lt hd1 h1
        exact TVal.cmp_lt_of_disc_lt (by omega)

/-- Pointwise lawfulness of the tree order, given lawfulness of the string
payload order. -/
theorem TVal.lawAt_cmp {σ : Type} {c : σ → σ → Ordering}
    (hc : ∀ s, LawAt c s) (a : TVal σ) : LawAt (TVal.cmp c) a :=
  TVal.lawAt_cmp_aux hc (sizeOf a + 1) a (by omega)

/-- Pointwise lawfulness of the `ValueTemplate` order. -/
theorem valueTemplate_lawAt_cmp (a : ValueTemplate) :
    LawAt ValueTemplate.cmp a :=
  TVal.lawAt_cmp lawAt_chunksCmp a

/-- Pointwise lawfulness of the `serde_value::Value` order. -/
theorem value_lawAt_cmp (a : Value) : LawAt Value.cmp a :=
  TVal.lawAt_cmp lawAt_strCmp a

/-! ## Lawfulness of the tree equality -/

theorem TVal.beq_of_disc_ne {σ : Type} {e : σ → σ → Bool} {a b : TVal σ}
    (h : a.discriminant ≠ b.discriminant) : TVal.beq e a b = false := by
  cases a <;> cases b <;> first
    | exact absurd rfl h
    | rfl

theorem TVal.beqList_eq_iff {σ : Type} {e : σ → σ → Bool}
    {l₁ l₂ : List (TVal σ)}
    (h : ∀ x ∈ l₁, ∀ b, TVal.beq e x b = true ↔ x = b) :
    TVal.beqList e l₁ l₂ = true ↔ l₁ = l₂ := by
  induction l₁ generalizing l₂ with
  | nil => cases l₂ <;> simp [TVal.beqList]
  | cons x xs ih =>
    cases l₂ with
    | nil => simp [TVal.beqList]
    | cons y ys =>
      have hx := h x (by simp)
      have ih' := @ih ys (fun z hz => h z (by simp [hz]))
      show (TVal.beq e x y && TVal.beqList e xs ys) = true ↔ _
      rw [Bool.and_eq_true, hx y, ih']
      simp

theorem TVal.beqPairs_eq_iff {σ : Type} {e : σ → σ → Bool}
    {l₁ l₂ : List (TVal σ × TVal σ)}
    (h : ∀ p ∈ l₁, (∀ b, TVal.beq e p.1 b = true ↔ p.1 = b) ∧
      (∀ b, TVal.beq e p.2 b = true ↔ p.2 = b)) :
    TVal.beqPairs e l₁ l₂ = true ↔ l₁ = l₂ := by
  induction l₁ generalizing l₂ with
  | nil => cases l₂ <;> simp [TVal.beqPairs]
  | cons p xs ih =>
    cases l₂ with
    | nil =>
      obtain ⟨k, v⟩ := p
      simp [TVal.beqPairs]
    | cons q ys =>
      obtain ⟨k, v⟩ := p
      obtain ⟨k', v'⟩ := q
      have hp := h (k, v) (by simp)
      have ih' := @ih ys (fun z hz => h z (by simp [hz]))
      show (TVal.beq e k k' && (TVal.beq e v v' && TVal.beqPairs e xs ys)) =
        true ↔ _
      rw [Bool.and_eq_true, Bool.and_eq_true, hp.1 k', hp.2 v', ih']
      simp only [Prod.mk.injEq, List.cons.injEq]
      tauto

theorem TVal.beq_eq_aux {σ : Type} {e : σ → σ → Bool}
    (he : ∀ s t, e s t = true ↔ s = t) :
    ∀ (n : Nat) (a : TVal σ), sizeOf a < n →
      ∀ b, TVal.beq e a b = true ↔ a = b := by
  intro n
  induction n with
  | zero => intro a ha; omega
  | succ n ih =>
    intro a ha b
    have IH : ∀ x : TVal σ, sizeOf x < sizeOf a →
        ∀ y, TVal.beq e x y = true ↔ x = y :=
      fun x hx => ih x (by omega)
    by_cases hd : a.discriminant = b.discriminant
    · cases a with
      | map m =>
        obtain ⟨m₂, rfl⟩ := TVal.eq_map_of_disc hd.symm
        show TVal.beqPairs e m m₂ = true ↔ _
        rw [TVal.beqPairs_eq_iff (fun p hp =>
          ⟨IH p.1 (TVal.sizeOf_mem_map hp).1,
           IH p.2 (TVal.sizeOf_mem_map hp).2⟩)]
        simp
      | newtype v =>
        obtain ⟨w, rfl⟩ := TVal.eq_newtype_of_disc hd.symm
        show TVal.beq e v w = true ↔ _
        rw [IH v TVal.sizeOf_newtype w]
        simp
      | option v =>
        obtain ⟨w, rfl⟩ := TVal.eq_option_of_disc hd.symm
        cases v with
        | none =>
          cases w with
          | none => exact iff_of_true rfl rfl
          | some y =>
            constructor
            · intro hfx
              have hfx2 : false = true := hfx
              exact absurd hfx2 (by decide)
            · intro heq
              simp at heq
        | some x =>
          cases w with
          | none =>
            constructor
            · intro hfx
              have hfx2 : false = true := hfx
              exact absurd hfx2 (by decide)
            · intro heq
              simp at heq
          | some y =>
            show TVal.beq e x y = true ↔ _
            rw [IH x (TVal.sizeOf_mem_option rfl) y]
            simp
      | seq vs =>
        obtain ⟨ws, rfl⟩ := TVal.eq_seq_of_disc hd.symm
        show TVal.beqList e vs ws = true ↔ _
        rw [TVal.beqList_eq_iff (fun x hx =>
          IH x (TVal.sizeOf_mem_seq hx))]
        simp
      | str s =>
        obtain ⟨s₂, rfl⟩ := TVal.eq_str_of_disc hd.symm
        show e s s₂ = true ↔ _
        rw [he s s₂]
        simp
      | bool x =>
        obtain ⟨x₂, rfl⟩ := TVal.eq_bool_of_disc hd.symm
        show (x == x₂) = true ↔ _
        simp
      | bytes x =>
        obtain ⟨x₂, rfl⟩ := TVal.eq_bytes_of_disc hd.symm
        show (x == x₂) = true ↔ _
        simp
      | char x =>
        obtain ⟨x₂, rfl⟩ := TVal.eq_char_of_disc hd.symm
        show (x == x₂) = true ↔ _
        simp
      | f32 x =>
        obtain ⟨x₂, rfl⟩ := TVal.eq_f32_of_disc hd.symm
        show (x == x₂) = true ↔ _
        simp
      | f64 x =>
        obtain ⟨x₂, rfl⟩ := TVal.eq_f64_of_disc hd.symm
        show (x == x₂) = true ↔ _
        simp
      | i8 x =>
        obtain ⟨x₂, rfl⟩ := TVal.eq_i8_of_disc hd.symm
        show (x == x₂) = true ↔ _
        simp
      | i16 x =>
        obtain ⟨x₂, rfl⟩ := TVal.eq_i16_of_disc hd.symm
        show (x == x₂) = true ↔ _
        simp
      | i32 x =>
        obtain ⟨x₂, rfl⟩ := TVal.eq_i32_of_disc hd.symm
        show (x == x₂) = true ↔ _
        simp
      | i64 x =>
        obtain ⟨x₂, rfl⟩ := TVal.eq_i64_of_disc hd.symm
        show (x == x₂) = true ↔ _
        simp
      | u8 x =>
        obtain ⟨x₂, rfl⟩ := TVal.eq_u8_of_disc hd.symm
        show (x == x₂) = true ↔ _
        simp
      | u16 x =>
        obtain ⟨x₂, rfl⟩ := TVal.eq_u16_of_disc hd.symm
        show (x == x₂) = true ↔ _
        simp
      | u32 x =>
        obtain ⟨x₂, rfl⟩ := TVal.eq_u32_of_disc hd.symm
        show (x == x₂) = true ↔ _
        simp
      | u64 x =>
        obtain ⟨x₂, rfl⟩ := TVal.eq_u64_of_disc hd.symm
        show (x == x₂) = true ↔ _
        simp
      | unit =>
        obtain rfl := TVal.eq_unit_of_disc hd.symm
        exact iff_of_true rfl rfl
    · rw [TVal.beq_of_disc_ne hd]
      exact iff_of_false (by simp) (TVal.ne_of_disc_ne hd)

/-- The tree equality decides equality, given that the payload equality
does. -/
theorem TVal.beq_eq {σ : Type} {e : σ → σ → Bool}
    (he : ∀ s t, e s t = true ↔ s = t) (a b : TVal σ) :
    TVal.beq e a b = true ↔ a = b :=
  TVal.beq_eq_aux he (sizeOf a + 1) a (by omega) b

/-- `impl PartialEq for ValueTemplate` decides equality of the model. -/
theorem valueTemplate_beq_eq (a b : ValueTemplate) :
    ValueTemplate.beq a b = true ↔ a = b :=
  TVal.beq_eq (fun s t => by simp [chunksBeq]) a b

/-! ## Claim theorems: the tree order (C7) -/

/-- C7: the comparison on the typed-value model (`Ord for ValueTemplate`)
is a total order consistent with its equality: `cmp` returns `Equal`
exactly on equal values and exactly when the `PartialEq` instance agrees,
it is reflexive, antisymmetric (swapping the arguments swaps the
ordering), and transitive, and values of different variant kinds compare
by the fixed per-kind `discriminant` rank. Same-kind composites and the
float ranks compare structurally by definition of `cmp`. -/
theorem valueTemplate_cmp_total_order :
    ∀ a b d : ValueTemplate,
      (ValueTemplate.cmp a b = .eq ↔ a = b) ∧
      (ValueTemplate.cmp a b = .eq ↔ ValueTemplate.beq a b = true) ∧
      ValueTemplate.cmp a a = .eq ∧
      (ValueTemplate.cmp a b).swap = ValueTemplate.cmp b a ∧
      (ValueTemplate.cmp a b = .lt ↔ ValueTemplate.cmp b a = .gt) ∧
      (ValueTemplate.cmp a b = .lt → ValueTemplate.cmp b d = .lt →
        ValueTemplate.cmp a d = .lt) ∧
      (a.discriminant ≠ b.discriminant →
        ValueTemplate.cmp a b = cmpOf a.discriminant b.discriminant) := by
  intro a b d
  have ha := valueTemplate_lawAt_cmp a
  refine ⟨ha.eq_iff b, ?_, ha.refl, ha.swap_eq b, ?_, ha.lt_trans b d,
    fun hd => TVal.cmp_of_disc_ne hd⟩
  · rw [ha.eq_iff b, valueTemplate_beq_eq a b]
  · rw [← ha.swap_eq b, Ordering.swap_eq_gt]

/-- Witness for C7 at concrete values: the transitivity hypotheses are
discharged at `bool false < bool true < u8 0` (a same-kind and a
cross-kind comparison). -/
theorem valueTemplate_cmp_total_order_witness :
    ValueTemplate.cmp (.bool false) (.bool true) = .lt ∧
    ValueTemplate.cmp (.bool true) (.u8 0) = .lt ∧
    ValueTemplate.cmp (.bool false) (.u8 0) = .lt :=
  ⟨by decide, by decide,
    (valueTemplate_cmp_total_order (.bool false) (.bool true)
      (.u8 0)).2.2.2.2.2.1 (by decide) (by decide)⟩

/-! ## Claim theorems: key derivation (C1, C2, C3) -/

/-- First colliding MDC assignment: `k1 = "1"`, `k2 = "abcdefghi-"`. -/
def ctxColl₁ : String → Option String := fun k =>
  if k = "k1" then some "1" else
  if k = "k2" then some "abcdefghi-" else none

/-- Second colliding MDC assignment: `k1 = "10abcdefghi"`, `k2` absent. -/
def ctxColl₂ : String → Option String := fun k =>
  if k = "k1" then some "10abcdefghi" else none

/-- A template referencing the keys `k1` and `k2`. -/
def tColl : Template :=
  ⟨.str [.mdc "k1" none, .mdc "k2" none], ["k1", "k2"]⟩

/-- C1: the length-prefix encoding of `Template::key` is not injective.
For the same well-formed template (referenced keys `k1`, `k2`, processed
in the same order) the two assignments `{k1 = "1", k2 = "abcdefghi-"}` and
`{k1 = "10abcdefghi", k2 absent}` differ in both keys' presence or value,
yet derive the same cache key `"1110abcdefghi-"`: the decimal length
prefix of one value can be absorbed by a value whose own characters look
like a length prefix. -/
theorem derive_key_collision :
    Template.Wf tColl ∧
    ctxColl₁ "k1" ≠ ctxColl₂ "k1" ∧
    ctxColl₁ "k2" ≠ ctxColl₂ "k2" ∧
    Template.key tColl ctxColl₁ = "1110abcdefghi-" ∧
    Template.key tColl ctxColl₂ = "1110abcdefghi-" :=
  ⟨⟨by decide, by decide, by decide⟩, by decide, by decide, by decide,
    by decide⟩

/-- A template referencing keys `a` and `b`, stored in that iteration
order. -/
def tOrder₁ : Template := ⟨.str [.mdc "a" none, .mdc "b" none], ["a", "b"]⟩

/-- The same template value with the opposite key iteration order —
equally possible for a `HashSet`, whose iteration order is unspecified. -/
def tOrder₂ : Template := ⟨.str [.mdc "a" none, .mdc "b" none], ["b", "a"]⟩

/-- A context giving `a = "x"` and `b = "yz"`. -/
def ctxOrder : String → Option String := fun k =>
  if k = "a" then some "x" else if k = "b" then some "yz" else none

/-- C2: `Template::key` iterates the `HashSet` in its unspecified
iteration order, not in sorted order: two well-formed templates with the
same value and the same referenced key set, differing only in the stored
iteration order, derive different keys under one unchanged context, so
the derived key is not determined by the key set and the context alone. -/
theorem derive_key_order_dependent :
    tOrder₁.value = tOrder₂.value ∧
    Template.Wf tOrder₁ ∧ Template.Wf tOrder₂ ∧
    Template.key tOrder₁ ctxOrder = "1x2yz" ∧
    Template.key tOrder₂ ctxOrder = "2yz1x" ∧
    Template.key tOrder₁ ctxOrder ≠ Template.key tOrder₂ ctxOrder :=
  ⟨rfl, ⟨by decide, by decide, by decide⟩, ⟨by decide, by decide, by decide⟩,
    by decide, by decide, by decide⟩

theorem Template.key_foldl_congr (ctx₁ ctx₂ : String → Option String) :
    ∀ (ks : List String) (acc : String), (∀ k ∈ ks, ctx₁ k = ctx₂ k) →
      ks.foldl
        (fun s k =>
          match ctx₁ k with
          | some v => s ++ (toString v.utf8ByteSize ++ v)
          | none => s ++ "-") acc =
      ks.foldl
        (fun s k =>
          match ctx₂ k with
          | some v => s ++ (toString v.utf8ByteSize ++ v)
          | none => s ++ "-") acc
  | [], _, _ => rfl
  | k :: ks, acc, h => by
    simp only [List.foldl_cons]
    rw [h k (by simp)]
    exact Template.key_foldl_congr ctx₁ ctx₂ ks _
      (fun j hj => h j (by simp [hj]))

/-- C3: the derived key of a well-formed template depends only on the
lookups of the keys its tree references: two contexts agreeing on every
referenced key derive the same key, regardless of other context entries. -/
theorem derive_key_depends_only_on_referenced :
    ∀ (t : Template) (ctx₁ ctx₂ : String → Option String), Template.Wf t →
      (∀ k ∈ t.value.keysList, ctx₁ k = ctx₂ k) →
      t.key ctx₁ = t.key ctx₂ := by
  intro t ctx₁ ctx₂ hwf hctx
  unfold Template.key
  exact Template.key_foldl_congr ctx₁ ctx₂ t.keys ""
    (fun k hk => hctx k (hwf.2.1 k hk))

/-- A context agreeing with `ctxOrder` on the referenced keys but with an
extra unrelated entry. -/
def ctxOrderJunk : String → Option String := fun k =>
  if k = "zzz" then some "junk" else ctxOrder k

/-- Witness for C3: the unrelated entry `zzz = "junk"` does not change the
derived key of `tOrder₁`. -/
theorem derive_key_depends_only_on_referenced_witness :
    Template.Wf tOrder₁ ∧
    (∀ k ∈ tOrder₁.value.keysList, ctxOrder k = ctxOrderJunk k) ∧
    Template.key tOrder₁ ctxOrder = Template.key tOrder₁ ctxOrderJunk :=
  ⟨⟨by decide, by decide, by decide⟩, by decide,
    derive_key_depends_only_on_referenced tOrder₁ ctxOrder ctxOrderJunk
      ⟨by decide, by decide, by decide⟩ (by decide)⟩

/-! ## Claim theorems: chunk resolution (C4) -/

/-- Specification-side definition: the key of the first chunk that is an
MDC reference whose key is absent from the context and which carries no
literal default — the reference the spec says expansion must fail on. -/
def firstMissingKey (ctx : String → Option String) :
    List Chunk → Option String
  | [] => none
  | .text _ :: rest => firstMissingKey ctx rest
  | .mdc k d :: rest =>
    match ctx k, d with
    | none, none => some k
    | _, _ => firstMissingKey ctx rest

/-- Specification-side definition: the fully resolved string, taking a
present context value as-is and falling back to the literal default for an
absent one (meaningful when no chunk is missing). -/
def renderChunksSpec (ctx : String → Option String) : List Chunk → String
  | [] => ""
  | .text t :: rest => t ++ renderChunksSpec ctx rest
  | .mdc k d :: rest =>
    (match ctx k, d with
     | some v, _ => v
     | none, some dv => dv
     | none, none => "") ++ renderChunksSpec ctx rest

theorem expandChunks_spec (ctx : String → Option String)
    (chunks : List Chunk) :
    expandChunks ctx chunks =
      match firstMissingKey ctx chunks with
      | some k => .error ("MDC key `" ++ k ++ "` not present")
      | none => .ok (renderChunksSpec ctx chunks) := by
  induction chunks with
  | nil => rfl
  | cons c rest ih =>
    cases c with
    | text t =>
      simp only [expandChunks, firstMissingKey, renderChunksSpec, ih]
      cases firstMissingKey ctx rest <;> rfl
    | mdc k d =>
      cases hc : ctx k with
      | some v =>
        simp only [expandChunks, firstMissingKey, renderChunksSpec, hc, ih]
        cases firstMissingKey ctx rest <;> rfl
      | none =>
        cases d with
        | some dv =>
          simp only [expandChunks, firstMissingKey, renderChunksSpec, hc, ih]
          cases firstMissingKey ctx rest <;> rfl
        | none =>
          simp only [expandChunks, firstMissingKey, hc]

/-- C4: expanding a string leaf resolves each reference chunk from the
context — a present value is used as-is, an absent one falls back to the
literal default — and if some reference has neither, the expansion of the
leaf is the missing-context-key error naming the first such key, with no
partial value returned. -/
theorem expand_string_leaf_resolution (ctx : String → Option String)
    (chunks : List Chunk) :
    ValueTemplate.expand ctx (.str chunks) =
      match firstMissingKey ctx chunks with
      | some k => .error ("MDC key `" ++ k ++ "` not present")
      | none => .ok (.str (renderChunksSpec ctx chunks)) := by
  show (do
    let s ← expandChunks ctx chunks
    Except.ok (TVal.str s)) = _
  rw [expandChunks_spec]
  cases firstMissingKey ctx chunks <;> rfl

/-! ## Claim theorems: build-time rejection (C5) -/

/-- A parser piece that fails template construction: a parse error, a
reference not named `mdc`, or an `mdc` reference with an argument count
other than 1 or 2. -/
def badPiece : Piece → Bool
  | .text _ => false
  | .argument nm args =>
    if nm = "mdc" then args.isEmpty || args.length > 2 else true
  | .error _ => true

/-! Whether some string leaf of the value parses to a piece sequence
containing a bad piece. -/
mutual
def TVal.hasBadLeaf (parse : String → List Piece) : Value → Bool
  | .map m => TVal.hasBadLeafPairs parse m
  | .newtype v => TVal.hasBadLeaf parse v
  | .option none => false
  | .option (some v) => TVal.hasBadLeaf parse v
  | .seq vs => TVal.hasBadLeafList parse vs
  | .str s => (parse s).any badPiece
  | _ => false

def TVal.hasBadLeafList (parse : String → List Piece) : List Value → Bool
  | [] => false
  | v :: r => TVal.hasBadLeaf parse v || TVal.hasBadLeafList parse r

def TVal.hasBadLeafPairs (parse : String → List Piece) :
    List (Value × Value) → Bool
  | [] => false
  | (k, v) :: r =>
    TVal.hasBadLeaf parse k ||
      (TVal.hasBadLeaf parse v || TVal.hasBadLeafPairs parse r)
end

theorem exceptBind_ok {ε α β : Type} (a : α) (f : α → Except ε β) :
    (Except.ok a >>= f : Except ε β) = f a := rfl

theorem exceptBind_error {ε α β : Type} (e : ε) (f : α → Except ε β) :
    (Except.error e >>= f : Except ε β) = .error e := rfl

theorem any_badPiece_true_of_error {s : String} {rest : List Piece}
    {e : String} (hr : chunksOfPieces s rest = .error e)
    (ih : (∃ cs, chunksOfPieces s rest = .ok cs) ↔
      rest.any badPiece = false) : rest.any badPiece = true := by
  rcases hrb : rest.any badPiece
  · obtain ⟨cs, hcs⟩ := ih.mpr hrb
    rw [hr] at hcs
    exact absurd hcs (by simp)
  · rfl

theorem chunksOfPieces_isOk_iff (s : String) (ps : List Piece) :
    (∃ cs, chunksOfPieces s ps = .ok cs) ↔ ps.any badPiece = false := by
  induction ps with
  | nil => simp [chunksOfPieces]
  | cons p rest ih =>
    cases p with
    | text t =>
      rcases hr : chunksOfPieces s rest with e | cs
      · have hb := any_badPiece_true_of_error hr ih
        simp [chunksOfPieces, hr, exceptBind_error, badPiece, hb]
      · have hb : rest.any badPiece = false := ih.mp ⟨cs, hr⟩
        simp [chunksOfPieces, hr, exceptBind_ok, badPiece, hb]
    | argument nm args =>
      by_cases hnm : nm = "mdc"
      · subst hnm
        cases args with
        | nil => simp [chunksOfPieces, badPiece]
        | cons a others =>
          by_cases hlen : others.length > 1
          · have h2 : (a :: others).length > 2 := by
              simp only [List.length_cons]
              omega
            simp [chunksOfPieces, hlen, badPiece, h2]
          · have h2 : ¬(a :: others).length > 2 := by
              simp only [List.length_cons]
              omega
            rcases hr : chunksOfPieces s rest with e | cs
            · have hb := any_badPiece_true_of_error hr ih
              simp [chunksOfPieces, hlen, hr, exceptBind_error, badPiece,
                h2, hb]
            · have hb : rest.any badPiece = false := ih.mp ⟨cs, hr⟩
              simp [chunksOfPieces, hlen, hr, exceptBind_ok, badPiece,
                h2, hb]
              omega
      · simp [chunksOfPieces, hnm, badPiece]
    | error e => simp [chunksOfPieces, badPiece]

theorem not_ex_ok_of_error {ε α : Type} {m : Except ε α} {e : ε}
    (h : m = .error e) : ¬∃ x, m = .ok x := by
  rintro ⟨x, hx⟩
  rw [h] at hx
  exact absurd hx (by simp)

theorem true_of_iff_ok_error {α : Type} {P : Bool} {m : Except String α}
    {e : String} (hiff : (∃ t, m = .ok t) ↔ P = false)
    (herr : m = .error e) : P = true := by
  cases hP : P
  · exact absurd (hiff.mpr hP) (not_ex_ok_of_error herr)
  · rfl

theorem ex_ok_bind_ctor {α β : Type} {m : Except String α} {g : α → β} :
    (∃ t, (m >>= fun x => Except.ok (g x)) = .ok t) ↔ ∃ x, m = .ok x := by
  rcases m with e | x
  · simp [exceptBind_error]
  · simp [exceptBind_ok]

theorem newList_isOk_iff (parse : String → List Piece) {l : List Value}
    (hIH : ∀ v ∈ l, (∃ t, ValueTemplate.new parse v = .ok t) ↔
      TVal.hasBadLeaf parse v = false) :
    (∃ r, ValueTemplate.newList parse l = .ok r) ↔
      TVal.hasBadLeafList parse l = false := by
  induction l with
  | nil => simp [ValueTemplate.newList, TVal.hasBadLeafList]
  | cons v rest ih =>
    have hv := hIH v (by simp)
    have ih' := ih (fun w hw => hIH w (by simp [hw]))
    simp only [ValueTemplate.newList, TVal.hasBadLeafList]
    rcases hn : ValueTemplate.new parse v with e | t
    · have hbad := true_of_iff_ok_error hv hn
      simp [exceptBind_error, hbad]
    · have hgood : TVal.hasBadLeaf parse v = false := hv.mp ⟨t, hn⟩
      rcases hr : ValueTemplate.newList parse rest with e | r
      · have hbadr := true_of_iff_ok_error ih' hr
        simp [exceptBind_ok, exceptBind_error, hgood, hbadr]
      · have hgoodr : TVal.hasBadLeafList parse rest = false := ih'.mp ⟨r, hr⟩
        simp [exceptBind_ok, hgood, hgoodr]

theorem newPairs_isOk_iff (parse : String → List Piece)
    {l : List (Value × Value)}
    (hIH : ∀ p ∈ l,
      ((∃ t, ValueTemplate.new parse p.1 = .ok t) ↔
        TVal.hasBadLeaf parse p.1 = false) ∧
      ((∃ t, ValueTemplate.new parse p.2 = .ok t) ↔
        TVal.hasBadLeaf parse p.2 = false)) :
    ∀ acc, (∃ r, ValueTemplate.newPairs parse l acc = .ok r) ↔
      TVal.hasBadLeafPairs parse l = false := by
  induction l with
  | nil => intro acc; simp [ValueTemplate.newPairs, TVal.hasBadLeafPairs]
  | cons p rest ih =>
    intro acc
    obtain ⟨k, v⟩ := p
    have hk := (hIH (k, v) (by simp)).1
    have hv := (hIH (k, v) (by simp)).2
    have ih' := ih (fun q hq => hIH q (by simp [hq]))
    simp only [ValueTemplate.newPairs, TVal.hasBadLeafPairs]
    rcases hkn : ValueTemplate.new parse k with e | k'
    · have hbad := true_of_iff_ok_error hk hkn
      simp [exceptBind_error, hbad]
    · have hgoodk : TVal.hasBadLeaf parse k = false := hk.mp ⟨k', hkn⟩
      rcases hvn : ValueTemplate.new parse v with e | v'
      · have hbad := true_of_iff_ok_error hv hvn
        simp [exceptBind_ok, exceptBind_error, hgoodk, hbad]
      · have hgoodv : TVal.hasBadLeaf parse v = false := hv.mp ⟨v', hvn⟩
        simp only [exceptBind_ok]
        rw [ih' (btInsert ValueTemplate.cmp k' v' acc)]
        simp [hgoodk, hgoodv]

/-- C5: template construction fails exactly when some string leaf of the
pattern parses to a piece sequence containing a malformed construct, a
reference not named `mdc`, or a reference with an argument count other
than 1 or 2 — so a zero-argument reference is rejected when the template
is built, and a template is only ever obtained from an entirely clean
pattern. -/
theorem template_build_rejects_iff :
    ∀ (parse : String → List Piece) (v : Value),
      (∃ t, ValueTemplate.new parse v = .ok t) ↔
        TVal.hasBadLeaf parse v = false := by
  intro parse
  suffices h : ∀ (n : Nat) (v : Value), sizeOf v < n →
      ((∃ t, ValueTemplate.new parse v = .ok t) ↔
        TVal.hasBadLeaf parse v = false) from
    fun v => h (sizeOf v + 1) v (by omega)
  intro n
  induction n with
  | zero => intro v hv; omega
  | succ n ih =>
    intro v hv
    have IH : ∀ w : Value, sizeOf w < sizeOf v →
        ((∃ t, ValueTemplate.new parse w = .ok t) ↔
          TVal.hasBadLeaf parse w = false) :=
      fun w hw => ih w (by omega)
    cases v with
    | map m =>
      have hpairs := newPairs_isOk_iff parse (fun p hp =>
        ⟨IH p.1 (TVal.sizeOf_mem_map hp).1, IH p.2 (TVal.sizeOf_mem_map hp).2⟩)
      show (∃ t, ((ValueTemplate.newPairs parse m []) >>=
        fun m2 => Except.ok (TVal.map m2)) = .ok t) ↔ _
      rw [ex_ok_bind_ctor, hpairs []]
      rfl
    | newtype w =>
      show (∃ t, (ValueTemplate.new parse w >>=
        fun t2 => Except.ok (TVal.newtype t2)) = .ok t) ↔ _
      rw [ex_ok_bind_ctor, IH w TVal.sizeOf_newtype]
      rfl
    | option o =>
      cases o with
      | none => exact iff_of_true ⟨_, rfl⟩ rfl
      | some w =>
        show (∃ t, (ValueTemplate.new parse w >>=
          fun t2 => Except.ok (TVal.option (some t2))) = .ok t) ↔ _
        rw [ex_ok_bind_ctor, IH w (TVal.sizeOf_mem_option rfl)]
        rfl
    | seq vs =>
      have hlist := newList_isOk_iff parse
        (fun w hw => IH w (TVal.sizeOf_mem_seq hw))
      show (∃ t, (ValueTemplate.newList parse vs >>=
        fun ts => Except.ok (TVal.seq ts)) = .ok t) ↔ _
      rw [ex_ok_bind_ctor, hlist]
      rfl
    | str s =>
      show (∃ t, (chunksOfPieces s (parse s) >>=
        fun cs => Except.ok (TVal.str cs)) = .ok t) ↔ _
      rw [ex_ok_bind_ctor, chunksOfPieces_isOk_iff]
      rfl
    | bool b => exact iff_of_true ⟨_, rfl⟩ rfl
    | bytes b => exact iff_of_true ⟨_, rfl⟩ rfl
    | char ch => exact iff_of_true ⟨_, rfl⟩ rfl
    | f32 r => exact iff_of_true ⟨_, rfl⟩ rfl
    | f64 r => exact iff_of_true ⟨_, rfl⟩ rfl
    | i8 m => exact iff_of_true ⟨_, rfl⟩ rfl
    | i16 m => exact iff_of_true ⟨_, rfl⟩ rfl
    | i32 m => exact iff_of_true ⟨_, rfl⟩ rfl
    | i64 m => exact iff_of_true ⟨_, rfl⟩ rfl
    | u8 m => exact iff_of_true ⟨_, rfl⟩ rfl
    | u16 m => exact iff_of_true ⟨_, rfl⟩ rfl
    | u32 m => exact iff_of_true ⟨_, rfl⟩ rfl
    | u64 m => exact iff_of_true ⟨_, rfl⟩ rfl
    | unit => exact iff_of_true ⟨_, rfl⟩ rfl

/-! ## Claim theorems: reference-free templates (C10) -/

/-- A chunk that is not a context reference. -/
def chunkRefFree : Chunk → Bool
  | .text _ => true
  | .mdc _ _ => false

/-! A template tree containing no context reference chunk anywhere. -/
mutual
def TVal.refFree : ValueTemplate → Bool
  | .map m => TVal.refFreePairs m
  | .newtype v => TVal.refFree v
  | .option none => true
  | .option (some v) => TVal.refFree v
  | .seq vs => TVal.refFreeList vs
  | .str chunks => chunks.all chunkRefFree
  | _ => true

def TVal.refFreeList : List ValueTemplate → Bool
  | [] => true
  | v :: r => TVal.refFree v && TVal.refFreeList r

def TVal.refFreePairs : List (ValueTemplate × ValueTemplate) → Bool
  | [] => true
  | (k, v) :: r =>
    TVal.refFree k && (TVal.refFree v && TVal.refFreePairs r)
end

theorem keys_filterMap_nil {chunks : List Chunk}
    (h : chunks.all chunkRefFree = true) :
    (chunks.filterMap fun ch =>
      match ch with
      | .mdc k _ => some k
      | .text _ => none) = [] := by
  induction chunks with
  | nil => rfl
  | cons ch rest ih =>
    cases ch with
    | text t =>
      simp only [List.all_cons, chunkRefFree, Bool.true_and] at h
      simpa using ih h
    | mdc k d =>
      simp [List.all_cons, chunkRefFree] at h

theorem keysSeq_nil {vs : List ValueTemplate}
    (hIH : ∀ x ∈ vs, TVal.refFree x = true → TVal.keysList x = [])
    (h : TVal.refFreeList vs = true) : TVal.keysSeq vs = [] := by
  induction vs with
  | nil => rfl
  | cons v rest ih =>
    simp only [TVal.refFreeList, Bool.and_eq_true] at h
    simp only [TVal.keysSeq, hIH v (by simp) h.1,
      ih (fun x hx => hIH x (by simp [hx])) h.2, List.nil_append]

theorem keysPairs_nil {m : List (ValueTemplate × ValueTemplate)}
    (hIH : ∀ p ∈ m, (TVal.refFree p.1 = true → TVal.keysList p.1 = []) ∧
      (TVal.refFree p.2 = true → TVal.keysList p.2 = []))
    (h : TVal.refFreePairs m = true) : TVal.keysPairs m = [] := by
  induction m with
  | nil => rfl
  | cons p rest ih =>
    obtain ⟨k, v⟩ := p
    simp only [TVal.refFreePairs, Bool.and_eq_true] at h
    simp only [TVal.keysPairs, (hIH (k, v) (by simp)).1 h.1,
      (hIH (k, v) (by simp)).2 h.2.1,
      ih (fun q hq => hIH q (by simp [hq])) h.2.2, List.nil_append]

theorem keysList_nil_of_refFree :
    ∀ (v : ValueTemplate), TVal.refFree v = true → TVal.keysList v = [] := by
  suffices h : ∀ (n : Nat) (v : ValueTemplate), sizeOf v < n →
      TVal.refFree v = true → TVal.keysList v = [] from
    fun v => h (sizeOf v + 1) v (by omega)
  intro n
  induction n with
  | zero => intro v hv; omega
  | succ n ih =>
    intro v hv hf
    have IH : ∀ w : ValueTemplate, sizeOf w < sizeOf v →
        TVal.refFree w = true → TVal.keysList w = [] :=
      fun w hw => ih w (by omega)
    cases v with
    | map m =>
      exact keysPairs_nil (fun p hp =>
        ⟨IH p.1 (TVal.sizeOf_mem_map hp).1, IH p.2 (TVal.sizeOf_mem_map hp).2⟩)
        hf
    | newtype w => exact IH w TVal.sizeOf_newtype hf
    | option o =>
      cases o with
      | none => rfl
      | some w => exact IH w (TVal.sizeOf_mem_option rfl) hf
    | seq vs =>
      exact keysSeq_nil (fun x hx => IH x (TVal.sizeOf_mem_seq hx)) hf
    | str chunks => exact keys_filterMap_nil hf
    | bool b => rfl
    | bytes b => rfl
    | char ch => rfl
    | f32 r => rfl
    | f64 r => rfl
    | i8 m => rfl
    | i16 m => rfl
    | i32 m => rfl
    | i64 m => rfl
    | u8 m => rfl
    | u16 m => rfl
    | u32 m => rfl
    | u64 m => rfl
    | unit => rfl

theorem expandChunks_refFree {chunks : List Chunk}
    (h : chunks.all chunkRefFree = true)
    (ctx₁ ctx₂ : String → Option String) :
    ∃ s, expandChunks ctx₁ chunks = .ok s ∧
      expandChunks ctx₂ chunks = .ok s := by
  induction chunks with
  | nil => exact ⟨"", rfl, rfl⟩
  | cons ch rest ih =>
    cases ch with
    | text t =>
      simp only [List.all_cons, chunkRefFree, Bool.true_and] at h
      obtain ⟨s, h₁, h₂⟩ := ih h
      exact ⟨t ++ s, by simp [expandChunks, h₁, exceptBind_ok],
        by simp [expandChunks, h₂, exceptBind_ok]⟩
    | mdc k d =>
      simp [List.all_cons, chunkRefFree] at h

theorem expand_refFree :
    ∀ (v : ValueTemplate), TVal.refFree v = true →
      ∀ ctx₁ ctx₂ : String → Option String,
        ∃ w, ValueTemplate.expand ctx₁ v = .ok w ∧
          ValueTemplate.expand ctx₂ v = .ok w := by
  suffices h : ∀ (n : Nat) (v : ValueTemplate), sizeOf v < n →
      TVal.refFree v = true → ∀ ctx₁ ctx₂ : String → Option String,
        ∃ w, ValueTemplate.expand ctx₁ v = .ok w ∧
          ValueTemplate.expand ctx₂ v = .ok w from
    fun v => h (sizeOf v + 1) v (by omega)
  intro n
  induction n with
  | zero => intro v hv; omega
  | succ n ih =>
    intro v hv hf ctx₁ ctx₂
    have IH : ∀ w : ValueTemplate, sizeOf w < sizeOf v →
        TVal.refFree w = true →
        ∃ u, ValueTemplate.expand ctx₁ w = .ok u ∧
          ValueTemplate.expand ctx₂ w = .ok u :=
      fun w hw hfw => ih w (by omega) hfw ctx₁ ctx₂
    cases v with
    | map m =>
      have haux : ∀ (l : List (ValueTemplate × ValueTemplate)),
          (∀ p ∈ l, sizeOf p.1 < sizeOf (TVal.map m) ∧
            sizeOf p.2 < sizeOf (TVal.map m)) →
          TVal.refFreePairs l = true →
          ∀ acc, ∃ r, ValueTemplate.expandPairs ctx₁ l acc = .ok r ∧
            ValueTemplate.expandPairs ctx₂ l acc = .ok r := by
        intro l
        induction l with
        | nil => intro _ _ acc; exact ⟨acc, rfl, rfl⟩
        | cons p rest ihl =>
          intro hsz hfp acc
          obtain ⟨k, w⟩ := p
          simp only [TVal.refFreePairs, Bool.and_eq_true] at hfp
          obtain ⟨wk, hk₁, hk₂⟩ :=
            IH k (hsz (k, w) (by simp)).1 hfp.1
          obtain ⟨wv, hv₁, hv₂⟩ :=
            IH w (hsz (k, w) (by simp)).2 hfp.2.1
          obtain ⟨r, hr₁, hr₂⟩ := ihl (fun q hq => hsz q (by simp [hq]))
            hfp.2.2 (btInsert Value.cmp wk wv acc)
          refine ⟨r, ?_, ?_⟩
          · show (ValueTemplate.expand ctx₁ k >>= fun k2 =>
              ValueTemplate.expand ctx₁ w >>= fun v2 =>
                ValueTemplate.expandPairs ctx₁ rest
                  (btInsert Value.cmp k2 v2 acc)) = _
            rw [hk₁, exceptBind_ok, hv₁, exceptBind_ok, hr₁]
          · show (ValueTemplate.expand ctx₂ k >>= fun k2 =>
              ValueTemplate.expand ctx₂ w >>= fun v2 =>
                ValueTemplate.expandPairs ctx₂ rest
                  (btInsert Value.cmp k2 v2 acc)) = _
            rw [hk₂, exceptBind_ok, hv₂, exceptBind_ok, hr₂]
      obtain ⟨r, hr₁, hr₂⟩ := haux m
        (fun p hp => TVal.sizeOf_mem_map hp) hf []
      refine ⟨.map r, ?_, ?_⟩
      · show (ValueTemplate.expandPairs ctx₁ m [] >>= fun m2 =>
          Except.ok (TVal.map m2)) = _
        rw [hr₁, exceptBind_ok]
      · show (ValueTemplate.expandPairs ctx₂ m [] >>= fun m2 =>
          Except.ok (TVal.map m2)) = _
        rw [hr₂, exceptBind_ok]
    | newtype w =>
      obtain ⟨u, h₁, h₂⟩ := IH w TVal.sizeOf_newtype hf
      refine ⟨.newtype u, ?_, ?_⟩
      · show (ValueTemplate.expand ctx₁ w >>= fun t2 =>
          Except.ok (TVal.newtype t2)) = _
        rw [h₁, exceptBind_ok]
      · show (ValueTemplate.expand ctx₂ w >>= fun t2 =>
          Except.ok (TVal.newtype t2)) = _
        rw [h₂, exceptBind_ok]
    | option o =>
      cases o with
      | none => exact ⟨.option none, rfl, rfl⟩
      | some w =>
        obtain ⟨u, h₁, h₂⟩ := IH w (TVal.sizeOf_mem_option rfl) hf
        refine ⟨.option (some u), ?_, ?_⟩
        · show (ValueTemplate.expand ctx₁ w >>= fun t2 =>
            Except.ok (TVal.option (some t2))) = _
          rw [h₁, exceptBind_ok]
        · show (ValueTemplate.expand ctx₂ w >>= fun t2 =>
            Except.ok (TVal.option (some t2))) = _
          rw [h₂, exceptBind_ok]
    | seq vs =>
      have haux : ∀ (l : List ValueTemplate),
          (∀ x ∈ l, sizeOf x < sizeOf (TVal.seq vs)) →
          TVal.refFreeList l = true →
          ∃ r, ValueTemplate.expandList ctx₁ l = .ok r ∧
            ValueTemplate.expandList ctx₂ l = .ok r := by
        intro l
        induction l with
        | nil => intro _ _; exact ⟨[], rfl, rfl⟩
        | cons x rest ihl =>
          intro hsz hfl
          simp only [TVal.refFreeList, Bool.and_eq_true] at hfl
          obtain ⟨u, h₁, h₂⟩ := IH x (hsz x (by simp)) hfl.1
          obtain ⟨r, hr₁, hr₂⟩ := ihl (fun q hq => hsz q (by simp [hq]))
            hfl.2
          refine ⟨u :: r, ?_, ?_⟩
          · show (ValueTemplate.expand ctx₁ x >>= fun w =>
              ValueTemplate.expandList ctx₁ rest >>= fun ws =>
                Except.ok (w :: ws)) = _
            rw [h₁, exceptBind_ok, hr₁, exceptBind_ok]
          · show (ValueTemplate.expand ctx₂ x >>= fun w =>
              ValueTemplate.expandList ctx₂ rest >>= fun ws =>
                Except.ok (w :: ws)) = _
            rw [h₂, exceptBind_ok, hr₂, exceptBind_ok]
      obtain ⟨r, hr₁, hr₂⟩ := haux vs (fun x hx => TVal.sizeOf_mem_seq hx) hf
      refine ⟨.seq r, ?_, ?_⟩
      · show (ValueTemplate.expandList ctx₁ vs >>= fun ws =>
          Except.ok (TVal.seq ws)) = _
        rw [hr₁, exceptBind_ok]
      · show (ValueTemplate.expandList ctx₂ vs >>= fun ws =>
          Except.ok (TVal.seq ws)) = _
        rw [hr₂, exceptBind_ok]
    | str chunks =>
      obtain ⟨s, h₁, h₂⟩ := expandChunks_refFree hf ctx₁ ctx₂
      refine ⟨.str s, ?_, ?_⟩
      · show (expandChunks ctx₁ chunks >>= fun s2 =>
          Except.ok (TVal.str s2)) = _
        rw [h₁, exceptBind_ok]
      · show (expandChunks ctx₂ chunks >>= fun s2 =>
          Except.ok (TVal.str s2)) = _
        rw [h₂, exceptBind_ok]
    | bool b => exact ⟨.bool b, rfl, rfl⟩
    | bytes b => exact ⟨.bytes b, rfl, rfl⟩
    | char ch => exact ⟨.char ch, rfl, rfl⟩
    | f32 r => exact ⟨.f32 r, rfl, rfl⟩
    | f64 r => exact ⟨.f64 r, rfl, rfl⟩
    | i8 m => exact ⟨.i8 m, rfl, rfl⟩
    | i16 m => exact ⟨.i16 m, rfl, rfl⟩
    | i32 m => exact ⟨.i32 m, rfl, rfl⟩
    | i64 m => exact ⟨.i64 m, rfl, rfl⟩
    | u8 m => exact ⟨.u8 m, rfl, rfl⟩
    | u16 m => exact ⟨.u16 m, rfl, rfl⟩
    | u32 m => exact ⟨.u32 m, rfl, rfl⟩
    | u64 m => exact ⟨.u64 m, rfl, rfl⟩
    | unit => exact ⟨.unit, rfl, rfl⟩

/-- C10: a well-formed template whose tree contains no context reference
derives the empty cache key under every context, and its expansion
succeeds and yields the same value under any two contexts — so all
reference-free templates share one cache key and expand
context-independently. -/
theorem refFree_key_empty_expand_independent :
    ∀ (t : Template) (ctx₁ ctx₂ : String → Option String),
      Template.Wf t → TVal.refFree t.value = true →
      t.key ctx₁ = "" ∧
      ValueTemplate.expand ctx₁ t.value = ValueTemplate.expand ctx₂ t.value ∧
      ∃ w, ValueTemplate.expand ctx₁ t.value = .ok w := by
  intro t ctx₁ ctx₂ hwf hf
  have hknil : t.value.keysList = [] := keysList_nil_of_refFree t.value hf
  have hkeys : t.keys = [] := by
    cases hk : t.keys with
    | nil => rfl
    | cons k rest =>
      have := hwf.2.1 k (by simp [hk])
      rw [hknil] at this
      simp at this
  obtain ⟨w, h₁, h₂⟩ := expand_refFree t.value hf ctx₁ ctx₂
  refine ⟨?_, by rw [h₁, h₂], ⟨w, h₁⟩⟩
  unfold Template.key
  rw [hkeys]
  rfl

/-- A reference-free template: a single literal-text string leaf. -/
def tPlain : Template := ⟨.str [.text "hi"], []⟩

/-- Witness for C10 at a concrete reference-free template and two
contexts that differ on every key. -/
theorem refFree_key_empty_expand_independent_witness :
    Template.Wf tPlain ∧ TVal.refFree tPlain.value = true ∧
    tPlain.key (fun _ => some "v") = "" ∧
    ValueTemplate.expand (fun _ => some "v") tPlain.value =
      ValueTemplate.expand (fun _ => none) tPlain.value ∧
    ∃ w, ValueTemplate.expand (fun _ => some "v") tPlain.value = .ok w := by
  have h := refFree_key_empty_expand_independent tPlain
    (fun _ => some "v") (fun _ => none)
    ⟨by decide, by decide, by decide⟩ (by decide)
  exact ⟨⟨by decide, by decide, by decide⟩, by decide, h.1, h.2.1, h.2.2⟩

/-! ## `RoutingAppender` (`lib.rs`): C8 and C9 -/

/-- An appender (`log4rs::append::Append`): its observable behavior on one
record is the result its `append` returns. -/
structure Appender (Rec E : Type) where
  append : Rec → Except E Unit

/-- `struct RoutingAppender`: a boxed router and a mutex-protected cache.
`Route::route(record, &mut cache)` may mutate the locked cache and returns
either the resolved appender or an error; it is modelled as a function
returning the new cache state alongside the result. -/
structure RoutingAppender (Rec E C : Type) where
  router : Rec → C → Except E (Appender Rec E) × C
  cache : C

/-- `impl Append for RoutingAppender`: `route` the record, propagating a
routing error via `?`, then delegate to the resolved appender's own
`append`, returning its result. -/
def RoutingAppender.append {Rec E C : Type} (ra : RoutingAppender Rec E C)
    (record : Rec) : Except E Unit × C :=
  match ra.router record ra.cache with
  | (.error e, c') => (.error e, c')
  | (.ok app, c') => (app.append record, c')

/-- C8: `RoutingAppender::append` returns the router's error unchanged
when routing fails, and otherwise returns exactly the result of the
resolved destination's own append call — no wrapping, no retry; every
failure surfaces synchronously as the result of the single call. -/
theorem routing_append_delegates :
    ∀ {Rec E C : Type} (ra : RoutingAppender Rec E C) (record : Rec),
      (∀ e, (ra.router record ra.cache).1 = .error e →
        (ra.append record).1 = .error e) ∧
      (∀ app, (ra.router record ra.cache).1 = .ok app →
        (ra.append record).1 = app.append record) := by
  intro Rec E C ra record
  unfold RoutingAppender.append
  rcases hrc : ra.router record ra.cache with ⟨r, c'⟩
  constructor
  · intro e he
    replace he : r = .error e := he
    subst he
    rfl
  · intro app happ
    replace happ : r = .ok app := happ
    subst happ
    rfl

/-- A concrete routing appender over unit records whose router resolves an
appender that fails with `"boom"`. -/
def raBoom : RoutingAppender Unit String Nat :=
  ⟨fun _ c => (.ok ⟨fun _ => .error "boom"⟩, c + 1), 0⟩

/-- Witness for C8: the routing appender surfaces the destination's own
result (`error "boom"`) unchanged. -/
theorem routing_append_delegates_witness :
    (raBoom.append ()).1 = .error "boom" :=
  (routing_append_delegates raBoom ()).2
    ⟨fun _ => .error "boom"⟩ rfl

/-- `std::time::Duration`, as a count of nanoseconds. -/
structure Duration where
  nanos : Nat
  deriving DecidableEq

/-- `Duration::from_secs`. -/
def Duration.fromSecs (n : Nat) : Duration := ⟨n * 1000000000⟩

/-- Modelled from the spec: the `route::Cache` type lives in a module that
is not under `src/`; per §3 it is "an owning mapping from CacheKey to
CacheEntry plus a configured idle-timeout duration", so `Cache::new`
stores the duration it is given. The entry map is irrelevant to the
builder claim and is abstracted as a state type. -/
structure Cache (S : Type) where
  expiration : Duration
  entries : S

/-- `Cache::new(idle_timeout)`: a fresh cache with no entries carrying the
configured idle timeout. -/
def Cache.new (d : Duration) : Cache Unit := ⟨d, ()⟩

/-- `struct RoutingAppenderBuilder` (field `idle_timeout`; the field is
spelled `idleTimeout` here so the setter below can keep the source's
method name). -/
structure RoutingAppenderBuilder where
  idleTimeout : Duration

/-- `RoutingAppender::builder()`: the default idle timeout is
`Duration::from_secs(2 * 60)`. -/
def RoutingAppender.builder : RoutingAppenderBuilder :=
  ⟨Duration.fromSecs (2 * 60)⟩

/-- `RoutingAppenderBuilder::idle_timeout`: replaces the idle timeout. -/
def RoutingAppenderBuilder.idle_timeout (b : RoutingAppenderBuilder)
    (d : Duration) : RoutingAppenderBuilder :=
  { b with idleTimeout := d }

/-- `RoutingAppenderBuilder::build`: consumes the builder, wiring the
router to a fresh `Cache::new(self.idle_timeout)`. -/
def RoutingAppenderBuilder.build {Rec E : Type} (b : RoutingAppenderBuilder)
    (router : Rec → Cache Unit → Except E (Appender Rec E) × Cache Unit) :
    RoutingAppender Rec E (Cache Unit) :=
  ⟨router, Cache.new b.idleTimeout⟩

/-- C9: an appender built without calling the `idle_timeout` setter has a
cache idle timeout of exactly 2 minutes (120 seconds), and one built after
`idle_timeout(d)` has exactly `d`. -/
theorem builder_idle_timeout_default_and_override :
    ∀ {Rec E : Type}
      (router : Rec → Cache Unit → Except E (Appender Rec E) × Cache Unit)
      (d : Duration),
      (RoutingAppender.builder.build router).cache.expiration =
        Duration.fromSecs 120 ∧
      ((RoutingAppender.builder.idle_timeout d).build
        router).cache.expiration = d := by
  intro Rec E router d
  exact ⟨rfl, rfl⟩

/-! ## Claim theorems: round trip (C6) -/

/-! The template a string-free value builds to: the identity on every
node (a string leaf, which cannot occur in the values the round-trip
claim quantifies over, is sent to an empty chunk list). -/
mutual
def TVal.toTemplate : Value → ValueTemplate
  | .map m => .map (TVal.toTemplatePairs m)
  | .newtype v => .newtype (TVal.toTemplate v)
  | .option none => .option none
  | .option (some v) => .option (some (TVal.toTemplate v))
  | .seq vs => .seq (TVal.toTemplateList vs)
  | .str _ => .str []
  | .bool b => .bool b
  | .bytes b => .bytes b
  | .char ch => .char ch
  | .f32 r => .f32 r
  | .f64 r => .f64 r
  | .i8 n => .i8 n
  | .i16 n => .i16 n
  | .i32 n => .i32 n
  | .i64 n => .i64 n
  | .u8 n => .u8 n
  | .u16 n => .u16 n
  | .u32 n => .u32 n
  | .u64 n => .u64 n
  | .unit => .unit

def TVal.toTemplateList : List Value → List ValueTemplate
  | [] => []
  | v :: r => TVal.toTemplate v :: TVal.toTemplateList r

def TVal.toTemplatePairs : List (Value × Value) →
    List (ValueTemplate × ValueTemplate)
  | [] => []
  | (k, v) :: r =>
    (TVal.toTemplate k, TVal.toTemplate v) :: TVal.toTemplatePairs r
end

theorem TVal.toTemplate_disc (a : Value) :
    (TVal.toTemplate a).discriminant = a.discriminant := by
  cases a with
  | option o => cases o <;> rfl
  | _ => rfl

theorem TVal.cmpList_toTemplate {l₁ : List Value}
    (hIH : ∀ x ∈ l₁, TVal.strFree x = true → ∀ b : Value,
      TVal.strFree b = true →
      ValueTemplate.cmp (TVal.toTemplate x) (TVal.toTemplate b) =
        Value.cmp x b) :
    ∀ l₂ : List Value, TVal.strFreeList l₁ = true →
      TVal.strFreeList l₂ = true →
      TVal.cmpList chunksCmp (TVal.toTemplateList l₁)
        (TVal.toTemplateList l₂) = TVal.cmpList strCmp l₁ l₂ := by
  induction l₁ with
  | nil => intro l₂ _ _; cases l₂ <;> rfl
  | cons x xs ih =>
    intro l₂ h₁ h₂
    cases l₂ with
    | nil => rfl
    | cons y ys =>
      simp only [TVal.strFreeList, Bool.and_eq_true] at h₁ h₂
      have hx := hIH x (by simp) h₁.1 y h₂.1
      show (match ValueTemplate.cmp (TVal.toTemplate x) (TVal.toTemplate y)
        with
        | .eq => TVal.cmpList chunksCmp (TVal.toTemplateList xs)
            (TVal.toTemplateList ys)
        | o => o) = _
      rw [hx]
      show _ = (match Value.cmp x y with
        | .eq => TVal.cmpList strCmp xs ys
        | o => o)
      cases Value.cmp x y with
      | eq =>
        exact ih (fun z hz => hIH z (by simp [hz])) ys h₁.2 h₂.2
      | lt => rfl
      | gt => rfl

theorem TVal.cmpPairs_toTemplate {l₁ : List (Value × Value)}
    (hIH : ∀ p ∈ l₁,
      (TVal.strFree p.1 = true → ∀ b : Value, TVal.strFree b = true →
        ValueTemplate.cmp (TVal.toTemplate p.1) (TVal.toTemplate b) =
          Value.cmp p.1 b) ∧
      (TVal.strFree p.2 = true → ∀ b : Value, TVal.strFree b = true →
        ValueTemplate.cmp (TVal.toTemplate p.2) (TVal.toTemplate b) =
          Value.cmp p.2 b)) :
    ∀ l₂ : List (Value × Value), TVal.strFreePairs l₁ = true →
      TVal.strFreePairs l₂ = true →
      TVal.cmpPairs chunksCmp (TVal.toTemplatePairs l₁)
        (TVal.toTemplatePairs l₂) = TVal.cmpPairs strCmp l₁ l₂ := by
  induction l₁ with
  | nil => intro l₂ _ _; cases l₂ <;> rfl
  | cons p xs ih =>
    intro l₂ h₁ h₂
    obtain ⟨k, v⟩ := p
    cases l₂ with
    | nil => rfl
    | cons q ys =>
      obtain ⟨k', v'⟩ := q
      simp only [TVal.strFreePairs, Bool.and_eq_true] at h₁ h₂
      have hk := (hIH (k, v) (by simp)).1 h₁.1 k' h₂.1
      have hv := (hIH (k, v) (by simp)).2 h₁.2.1 v' h₂.2.1
      show (match ValueTemplate.cmp (TVal.toTemplate k) (TVal.toTemplate k')
        with
        | .eq =>
          match ValueTemplate.cmp (TVal.toTemplate v) (TVal.toTemplate v')
          with
          | .eq => TVal.cmpPairs chunksCmp (TVal.toTemplatePairs xs)
              (TVal.toTemplatePairs ys)
          | o => o
        | o => o) = _
      rw [hk, hv]
      show _ = (match Value.cmp k k' with
        | .eq =>
          match Value.cmp v v' with
          | .eq => TVal.cmpPairs strCmp xs ys
          | o => o
        | o => o)
      cases Value.cmp k k' with
      | eq =>
        cases Value.cmp v v' with
        | eq => exact ih (fun z hz => hIH z (by simp [hz])) ys h₁.2.2 h₂.2.2
        | lt => rfl
        | gt => rfl
      | lt => rfl
      | gt => rfl

theorem TVal.cmp_toTemplate :
    ∀ (a : Value), TVal.strFree a = true → ∀ b : Value,
      TVal.strFree b = true →
      ValueTemplate.cmp (TVal.toTemplate a) (TVal.toTemplate b) =
        Value.cmp a b := by
  suffices h : ∀ (n : Nat) (a : Value), sizeOf a < n →
      TVal.strFree a = true → ∀ b : Value, TVal.strFree b = true →
      ValueTemplate.cmp (TVal.toTemplate a) (TVal.toTemplate b) =
        Value.cmp a b from
    fun a => h (sizeOf a + 1) a (by omega)
  intro n
  induction n with
  | zero => intro a ha; omega
  | succ n ih =>
    intro a ha hfa b hfb
    have IH : ∀ x : Value, sizeOf x < sizeOf a → TVal.strFree x = true →
        ∀ y : Value, TVal.strFree y = true →
        ValueTemplate.cmp (TVal.toTemplate x) (TVal.toTemplate y) =
          Value.cmp x y :=
      fun x hx => ih x (by omega)
    by_cases hd : a.discriminant = b.discriminant
    · cases a with
      | map m =>
        obtain ⟨m₂, rfl⟩ := TVal.eq_map_of_disc hd.symm
        exact TVal.cmpPairs_toTemplate
          (fun p hp => ⟨IH p.1 (TVal.sizeOf_mem_map hp).1,
            IH p.2 (TVal.sizeOf_mem_map hp).2⟩) m₂ hfa hfb
      | newtype v =>
        obtain ⟨w, rfl⟩ := TVal.eq_newtype_of_disc hd.symm
        exact IH v TVal.sizeOf_newtype hfa w hfb
      | option o =>
        obtain ⟨o₂, rfl⟩ := TVal.eq_option_of_disc hd.symm
        cases o with
        | none => cases o₂ <;> rfl
        | some v =>
          cases o₂ with
          | none => rfl
          | some w => exact IH v (TVal.sizeOf_mem_option rfl) hfa w hfb
      | seq vs =>
        obtain ⟨ws, rfl⟩ := TVal.eq_seq_of_disc hd.symm
        exact TVal.cmpList_toTemplate
          (fun x hx => IH x (TVal.sizeOf_mem_seq hx)) ws hfa hfb
      | str s => simp [TVal.strFree] at hfa
      | bool x =>
        obtain ⟨x₂, rfl⟩ := TVal.eq_bool_of_disc hd.symm
        rfl
      | bytes x =>
        obtain ⟨x₂, rfl⟩ := TVal.eq_bytes_of_disc hd.symm
        rfl
      | char x =>
        obtain ⟨x₂, rfl⟩ := TVal.eq_char_of_disc hd.symm
        rfl
      | f32 x =>
        obtain ⟨x₂, rfl⟩ := TVal.eq_f32_of_disc hd.symm
        rfl
      | f64 x =>
        obtain ⟨x₂, rfl⟩ := TVal.eq_f64_of_disc hd.symm
        rfl
      | i8 x =>
        obtain ⟨x₂, rfl⟩ := TVal.eq_i8_of_disc hd.symm
        rfl
      | i16 x =>
        obtain ⟨x₂, rfl⟩ := TVal.eq_i16_of_disc hd.symm
        rfl
      | i32 x =>
        obtain ⟨x₂, rfl⟩ := TVal.eq_i32_of_disc hd.symm
        rfl
      | i64 x =>
        obtain ⟨x₂, rfl⟩ := TVal.eq_i64_of_disc hd.symm
        rfl
      | u8 x =>
        obtain ⟨x₂, rfl⟩ := TVal.eq_u8_of_disc hd.symm
        rfl
      | u16 x =>
        obtain ⟨x₂, rfl⟩ := TVal.eq_u16_of_disc hd.symm
        rfl
      | u32 x =>
        obtain ⟨x₂, rfl⟩ := TVal.eq_u32_of_disc hd.symm
        rfl
      | u64 x =>
        obtain ⟨x₂, rfl⟩ := TVal.eq_u64_of_disc hd.symm
        rfl
      | unit =>
        obtain rfl := TVal.eq_unit_of_disc hd.symm
        rfl
    · have hd' : (TVal.toTemplate a).discriminant ≠
          (TVal.toTemplate b).discriminant := by
        rw [TVal.toTemplate_disc, TVal.toTemplate_disc]
        exact hd
      show TVal.cmp chunksCmp (TVal.toTemplate a) (TVal.toTemplate b) =
        TVal.cmp strCmp a b
      rw [TVal.cmp_of_disc_ne hd', TVal.cmp_of_disc_ne hd,
        TVal.toTemplate_disc, TVal.toTemplate_disc]

theorem btInsert_append {α β : Type} {c : α → α → Ordering} {k : α} {v : β} :
    ∀ {l : List (α × β)}, (∀ p ∈ l, c k p.1 = .gt) →
      btInsert c k v l = l ++ [(k, v)]
  | [], _ => rfl
  | (k', v') :: r, h => by
    have hk := h (k', v') (by simp)
    simp only [btInsert, hk]
    rw [btInsert_append (fun p hp => h p (by simp [hp]))]
    rfl

theorem pairwise_of_chainLt {α : Type} {c : α → α → Ordering} :
    ∀ {l : List α}, (∀ x ∈ l, LawAt c x) → chainLt c l = true →
      l.Pairwise fun a b => c a b = .lt
  | [], _, _ => List.Pairwise.nil
  | [x], _, _ => by simp
  | x :: y :: r, hlaw, h => by
    simp only [chainLt, Bool.and_eq_true] at h
    have hxy : c x y = .lt := by
      rcases hc : c x y with _ | _ | _ <;> rw [hc] at h <;>
        first
          | rfl
          | exact absurd h.1 (by decide)
    have hpw := pairwise_of_chainLt
      (fun z hz => hlaw z (by simp [hz]))
      (h.2 : chainLt c (y :: r) = true)
    refine List.Pairwise.cons ?_ hpw
    intro z hz
    rcases List.mem_cons.mp hz with rfl | hz'
    · exact hxy
    · exact (hlaw x (by simp)).lt_trans y z hxy
        (List.rel_of_pairwise_cons hpw hz')

theorem strFreePairs_mem {m : List (Value × Value)}
    (h : TVal.strFreePairs m = true) :
    ∀ p ∈ m, TVal.strFree p.1 = true ∧ TVal.strFree p.2 = true := by
  induction m with
  | nil => intro p hp; simp at hp
  | cons q r ih =>
    obtain ⟨k, v⟩ := q
    simp only [TVal.strFreePairs, Bool.and_eq_true] at h
    intro p hp
    rcases List.mem_cons.mp hp with rfl | hp'
    · exact ⟨h.1, h.2.1⟩
    · exact ih h.2.2 p hp'

theorem strFreeList_mem {l : List Value} (h : TVal.strFreeList l = true) :
    ∀ v ∈ l, TVal.strFree v = true := by
  induction l with
  | nil => intro v hv; simp at hv
  | cons x r ih =>
    simp only [TVal.strFreeList, Bool.and_eq_true] at h
    intro v hv
    rcases List.mem_cons.mp hv with rfl | hv'
    · exact h.1
    · exact ih h.2 v hv'

theorem btWfPairs_mem {σ : Type} {c : σ → σ → Ordering}
    {m : List (TVal σ × TVal σ)} (h : TVal.btWfPairs c m = true) :
    ∀ p ∈ m, TVal.btWf c p.1 = true ∧ TVal.btWf c p.2 = true := by
  induction m with
  | nil => intro p hp; simp at hp
  | cons q r ih =>
    obtain ⟨k, v⟩ := q
    simp only [TVal.btWfPairs, Bool.and_eq_true] at h
    intro p hp
    rcases List.mem_cons.mp hp with rfl | hp'
    · exact ⟨h.1, h.2.1⟩
    · exact ih h.2.2 p hp'

theorem btWfList_mem {σ : Type} {c : σ → σ → Ordering} {l : List (TVal σ)}
    (h : TVal.btWfList c l = true) : ∀ v ∈ l, TVal.btWf c v = true := by
  induction l with
  | nil => intro v hv; simp at hv
  | cons x r ih =>
    simp only [TVal.btWfList, Bool.and_eq_true] at h
    intro v hv
    rcases List.mem_cons.mp hv with rfl | hv'
    · exact h.1
    · exact ih h.2 v hv'

theorem newPairs_strFree (parse : String → List Piece) :
    ∀ {m : List (Value × Value)},
      (∀ p ∈ m, ValueTemplate.new parse p.1 = .ok (TVal.toTemplate p.1) ∧
        ValueTemplate.new parse p.2 = .ok (TVal.toTemplate p.2)) →
      m.Pairwise (fun p q => Value.cmp p.1 q.1 = .lt) →
      (∀ p ∈ m, TVal.strFree p.1 = true) →
      ∀ acc, (∀ p ∈ m, ∀ q ∈ acc,
        ValueTemplate.cmp (TVal.toTemplate p.1) q.1 = .gt) →
      ValueTemplate.newPairs parse m acc =
        .ok (acc ++ TVal.toTemplatePairs m) := by
  intro m
  induction m with
  | nil => intro _ _ _ acc _; simp [ValueTemplate.newPairs,
      TVal.toTemplatePairs]
  | cons p rest ih =>
    intro hIH hpw hsf acc hacc
    obtain ⟨k, v⟩ := p
    have hk := (hIH (k, v) (by simp)).1
    have hv := (hIH (k, v) (by simp)).2
    show (ValueTemplate.new parse k >>= fun k2 =>
      ValueTemplate.new parse v >>= fun v2 =>
        ValueTemplate.newPairs parse rest
          (btInsert ValueTemplate.cmp k2 v2 acc)) = _
    rw [hk, exceptBind_ok, hv, exceptBind_ok]
    rw [btInsert_append (fun q hq => hacc (k, v) (by simp) q hq)]
    rw [ih (fun q hq => hIH q (by simp [hq]))
      (List.Pairwise.of_cons hpw)
      (fun q hq => hsf q (by simp [hq]))
      (acc ++ [(TVal.toTemplate k, TVal.toTemplate v)])
      ?_]
    · simp [TVal.toTemplatePairs]
    · intro q hq w hw
      rcases List.mem_append.mp hw with hw' | hw'
      · exact hacc q (by simp [hq]) w hw'
      · have hwk : w = (TVal.toTemplate k, TVal.toTemplate v) := by
          simpa using hw'
        subst hwk
        have hlt : Value.cmp k q.1 = .lt :=
          List.rel_of_pairwise_cons hpw hq
        show ValueTemplate.cmp (TVal.toTemplate q.1)
          (TVal.toTemplate k) = .gt
        rw [TVal.cmp_toTemplate q.1 (hsf q (by simp [hq])) k
          (hsf (k, v) (by simp))]
        exact ((value_lawAt_cmp q.1).gt_iff_lt k).mpr hlt

theorem newList_strFree (parse : String → List Piece) :
    ∀ {l : List Value},
      (∀ v ∈ l, ValueTemplate.new parse v = .ok (TVal.toTemplate v)) →
      ValueTemplate.newList parse l = .ok (TVal.toTemplateList l)
  | [], _ => rfl
  | v :: rest, h => by
    show (ValueTemplate.new parse v >>= fun t =>
      ValueTemplate.newList parse rest >>= fun ts =>
        Except.ok (t :: ts)) = _
    rw [h v (by simp), exceptBind_ok,
      newList_strFree parse (fun w hw => h w (by simp [hw])),
      exceptBind_ok]
    rfl

/-- Building a string-free, map-sorted value yields exactly its node-wise
image: the `BTreeMap` re-insertions find their keys already in order. -/
theorem new_strFree_toTemplate (parse : String → List Piece) :
    ∀ (v : Value), TVal.strFree v = true → TVal.btWf strCmp v = true →
      ValueTemplate.new parse v = .ok (TVal.toTemplate v) := by
  suffices h : ∀ (n : Nat) (v : Value), sizeOf v < n →
      TVal.strFree v = true → TVal.btWf strCmp v = true →
      ValueTemplate.new parse v = .ok (TVal.toTemplate v) from
    fun v => h (sizeOf v + 1) v (by omega)
  intro n
  induction n with
  | zero => intro v hv; omega
  | succ n ih =>
    intro v hv hsf hwf
    have IH : ∀ w : Value, sizeOf w < sizeOf v → TVal.strFree w = true →
        TVal.btWf strCmp w = true →
        ValueTemplate.new parse w = .ok (TVal.toTemplate w) :=
      fun w hw => ih w (by omega)
    cases v with
    | map m =>
      simp only [TVal.btWf, Bool.and_eq_true] at hwf
      have hpwkeys := pairwise_of_chainLt
        (fun x _ => value_lawAt_cmp x) hwf.1
      have hpw : m.Pairwise (fun p q => Value.cmp p.1 q.1 = .lt) :=
        (List.pairwise_map.mp hpwkeys)
      have hsf' := strFreePairs_mem (hsf : TVal.strFreePairs m = true)
      have hwf' := btWfPairs_mem hwf.2
      have hIH : ∀ p ∈ m,
          ValueTemplate.new parse p.1 = .ok (TVal.toTemplate p.1) ∧
          ValueTemplate.new parse p.2 = .ok (TVal.toTemplate p.2) :=
        fun p hp =>
          ⟨IH p.1 (TVal.sizeOf_mem_map hp).1 (hsf' p hp).1 (hwf' p hp).1,
           IH p.2 (TVal.sizeOf_mem_map hp).2 (hsf' p hp).2 (hwf' p hp).2⟩
      show (ValueTemplate.newPairs parse m [] >>= fun m2 =>
        Except.ok (TVal.map m2)) = _
      rw [newPairs_strFree parse hIH hpw (fun p hp => (hsf' p hp).1) []
        (fun p _ q hq => absurd hq (by simp)), exceptBind_ok]
      rfl
    | newtype w =>
      show (ValueTemplate.new parse w >>= fun t =>
        Except.ok (TVal.newtype t)) = _
      rw [IH w TVal.sizeOf_newtype hsf hwf, exceptBind_ok]
      rfl
    | option o =>
      cases o with
      | none => rfl
      | some w =>
        show (ValueTemplate.new parse w >>= fun t =>
          Except.ok (TVal.option (some t))) = _
        rw [IH w (TVal.sizeOf_mem_option rfl) hsf hwf, exceptBind_ok]
        rfl
    | seq vs =>
      have hsf' := strFreeList_mem (hsf : TVal.strFreeList vs = true)
      have hwf' := btWfList_mem (hwf : TVal.btWfList strCmp vs = true)
      show (ValueTemplate.newList parse vs >>= fun ts =>
        Except.ok (TVal.seq ts)) = _
      rw [newList_strFree parse (fun w hw =>
        IH w (TVal.sizeOf_mem_seq hw) (hsf' w hw) (hwf' w hw)),
        exceptBind_ok]
      rfl
    | str s => simp [TVal.strFree] at hsf
    | bool b => rfl
    | bytes b => rfl
    | char ch => rfl
    | f32 r => rfl
    | f64 r => rfl
    | i8 m => rfl
    | i16 m => rfl
    | i32 m => rfl
    | i64 m => rfl
    | u8 m => rfl
    | u16 m => rfl
    | u32 m => rfl
    | u64 m => rfl
    | unit => rfl

theorem expandPairs_sorted (ctx : String → Option String) :
    ∀ {m : List (Value × Value)},
      (∀ p ∈ m, ValueTemplate.expand ctx (TVal.toTemplate p.1) = .ok p.1 ∧
        ValueTemplate.expand ctx (TVal.toTemplate p.2) = .ok p.2) →
      m.Pairwise (fun p q => Value.cmp p.1 q.1 = .lt) →
      ∀ acc, (∀ p ∈ m, ∀ q ∈ acc, Value.cmp p.1 q.1 = .gt) →
      ValueTemplate.expandPairs ctx (TVal.toTemplatePairs m) acc =
        .ok (acc ++ m) := by
  intro m
  induction m with
  | nil => intro _ _ acc _; simp [TVal.toTemplatePairs,
      ValueTemplate.expandPairs]
  | cons p rest ih =>
    intro hIH hpw acc hacc
    obtain ⟨k, v⟩ := p
    have hk := (hIH (k, v) (by simp)).1
    have hv := (hIH (k, v) (by simp)).2
    show (ValueTemplate.expand ctx (TVal.toTemplate k) >>= fun k2 =>
      ValueTemplate.expand ctx (TVal.toTemplate v) >>= fun v2 =>
        ValueTemplate.expandPairs ctx (TVal.toTemplatePairs rest)
          (btInsert Value.cmp k2 v2 acc)) = _
    rw [hk, exceptBind_ok, hv, exceptBind_ok]
    rw [btInsert_append (fun q hq => hacc (k, v) (by simp) q hq)]
    rw [ih (fun q hq => hIH q (by simp [hq]))
      (List.Pairwise.of_cons hpw) (acc ++ [(k, v)]) ?_]
    · simp
    · intro q hq w hw
      rcases List.mem_append.mp hw with hw' | hw'
      · exact hacc q (by simp [hq]) w hw'
      · have hwk : w = (k, v) := by simpa using hw'
        subst hwk
        exact ((value_lawAt_cmp q.1).gt_iff_lt k).mpr
          (List.rel_of_pairwise_cons hpw hq)

theorem expandList_toTemplate (ctx : String → Option String) :
    ∀ {l : List Value},
      (∀ v ∈ l, ValueTemplate.expand ctx (TVal.toTemplate v) = .ok v) →
      ValueTemplate.expandList ctx (TVal.toTemplateList l) = .ok l
  | [], _ => rfl
  | v :: rest, h => by
    show (ValueTemplate.expand ctx (TVal.toTemplate v) >>= fun w =>
      ValueTemplate.expandList ctx (TVal.toTemplateList rest) >>= fun ws =>
        Except.ok (w :: ws)) = _
    rw [h v (by simp), exceptBind_ok,
      expandList_toTemplate ctx (fun w hw => h w (by simp [hw])),
      exceptBind_ok]

/-- Expanding the template a string-free, map-sorted value builds to
reproduces the value under every context. -/
theorem expand_toTemplate (ctx : String → Option String) :
    ∀ (v : Value), TVal.strFree v = true → TVal.btWf strCmp v = true →
      ValueTemplate.expand ctx (TVal.toTemplate v) = .ok v := by
  suffices h : ∀ (n : Nat) (v : Value), sizeOf v < n →
      TVal.strFree v = true → TVal.btWf strCmp v = true →
      ValueTemplate.expand ctx (TVal.toTemplate v) = .ok v from
    fun v => h (sizeOf v + 1) v (by omega)
  intro n
  induction n with
  | zero => intro v hv; omega
  | succ n ih =>
    intro v hv hsf hwf
    have IH : ∀ w : Value, sizeOf w < sizeOf v → TVal.strFree w = true →
        TVal.btWf strCmp w = true →
        ValueTemplate.expand ctx (TVal.toTemplate w) = .ok w :=
      fun w hw => ih w (by omega)
    cases v with
    | map m =>
      simp only [TVal.btWf, Bool.and_eq_true] at hwf
      have hpw : m.Pairwise (fun p q => Value.cmp p.1 q.1 = .lt) :=
        List.pairwise_map.mp (pairwise_of_chainLt
          (fun x _ => value_lawAt_cmp x) hwf.1)
      have hsf' := strFreePairs_mem (hsf : TVal.strFreePairs m = true)
      have hwf' := btWfPairs_mem hwf.2
      show (ValueTemplate.expandPairs ctx (TVal.toTemplatePairs m) [] >>=
        fun m2 => Except.ok (TVal.map m2)) = _
      rw [expandPairs_sorted ctx (fun p hp =>
          ⟨IH p.1 (TVal.sizeOf_mem_map hp).1 (hsf' p hp).1 (hwf' p hp).1,
           IH p.2 (TVal.sizeOf_mem_map hp).2 (hsf' p hp).2 (hwf' p hp).2⟩)
        hpw [] (fun p _ q hq => absurd hq (by simp)), exceptBind_ok]
      rfl
    | newtype w =>
      show (ValueTemplate.expand ctx (TVal.toTemplate w) >>= fun t =>
        Except.ok (TVal.newtype t)) = _
      rw [IH w TVal.sizeOf_newtype hsf hwf, exceptBind_ok]
    | option o =>
      cases o with
      | none => rfl
      | some w =>
        show (ValueTemplate.expand ctx (TVal.toTemplate w) >>= fun t =>
          Except.ok (TVal.option (some t))) = _
        rw [IH w (TVal.sizeOf_mem_option rfl) hsf hwf, exceptBind_ok]
    | seq vs =>
      have hsf' := strFreeList_mem (hsf : TVal.strFreeList vs = true)
      have hwf' := btWfList_mem (hwf : TVal.btWfList strCmp vs = true)
      show (ValueTemplate.expandList ctx (TVal.toTemplateList vs) >>=
        fun ws => Except.ok (TVal.seq ws)) = _
      rw [expandList_toTemplate ctx (fun w hw =>
        IH w (TVal.sizeOf_mem_seq hw) (hsf' w hw) (hwf' w hw)),
        exceptBind_ok]
    | str s => simp [TVal.strFree] at hsf
    | bool b => rfl
    | bytes b => rfl
    | char ch => rfl
    | f32 r => rfl
    | f64 r => rfl
    | i8 m => rfl
    | i16 m => rfl
    | i32 m => rfl
    | i64 m => rfl
    | u8 m => rfl
    | u16 m => rfl
    | u32 m => rfl
    | u64 m => rfl
    | unit => rfl

/-- C6: for every value tree with no string leaves (and the `BTreeMap`
sortedness that every real `serde_value::Value` satisfies), building a
template succeeds and expanding it succeeds under every context, returning
a value structurally and value-wise identical to the original. -/
theorem round_trip_no_string_leaves :
    ∀ (parse : String → List Piece) (ctx : String → Option String)
      (v : Value), TVal.strFree v = true → TVal.btWf strCmp v = true →
      (ValueTemplate.new parse v).bind (ValueTemplate.expand ctx) =
        .ok v := by
  intro parse ctx v hsf hwf
  rw [new_strFree_toTemplate parse v hsf hwf]
  show ValueTemplate.expand ctx (TVal.toTemplate v) = .ok v
  exact expand_toTemplate ctx v hsf hwf

/-- A concrete string-free value whose map holds two sorted entries with
composite payloads. -/
def vRound : Value :=
  .map [(.u8 2, .seq [.bool true, .unit]),
        (.i8 (-1), .option (some (.f64 3)))]

/-- Witness for C6: the round trip at `vRound`, hypotheses evaluated. -/
theorem round_trip_no_string_leaves_witness :
    TVal.strFree vRound = true ∧ TVal.btWf strCmp vRound = true ∧
    (ValueTemplate.new (fun _ => []) vRound).bind
      (ValueTemplate.expand fun _ => none) = .ok vRound :=
  ⟨by decide, by decide,
    round_trip_no_string_leaves (fun _ => []) (fun _ => none) vRound
      (by decide) (by decide)⟩
